import Mathlib

/-!
# Verification of the CS-523 repository cores

Shallow embedding of the two cores of the repository:

* `Smc` — the additive secret-sharing SMC runtime
  (`smcompiler/secret_sharing.py`, `smcompiler/ttp.py`, `smcompiler/smc_party.py`).
* `Cred` / `Stroll` — Pointcheval–Sanders credentials and the server/client façade
  (`secretstroll/credential.py`, `secretstroll/stroll.py`).

Machine integers are modelled as `Int`/`Nat` with explicit `% p`
(Python's `%` on a positive modulus agrees with Lean's `Int.emod`).
Randomness (`random.randint`, `G1.order().random()`, …) is modelled by an
explicit stream of drawn values threaded through the computations.
-/

set_option autoImplicit false

namespace Smc

/-- State of the pseudo-random source used by the Python code
(`random.randint(0, prime - 1)` draws).  `seq` is the stream of values that the
source will produce and `idx` the position of the next draw.  The ghost field
`glitched` records whether the truthiness fallback of `Share.__init__`
(`value % prime if value else random.randint(...)`) has ever fired on the
integer `0`; it influences no computed value. -/
structure RState where
  seq : Nat → Nat
  idx : Nat
  glitched : Bool

/-- Draw the next random value from the stream. -/
def RState.draw (g : RState) : Nat × RState :=
  (g.seq g.idx, { g with idx := g.idx + 1 })

/-- `Share`: a secret share in the finite field (`secret_sharing.py`, class `Share`).
The field `value` is the Python attribute `self.value`. -/
structure Share where
  value : Int
deriving DecidableEq

/-- `Share.__init__(value)` (secret_sharing.py lines 36-44):
`self.value = value % prime if value else random.randint(0, prime - 1)`.
`none` models the default argument `value=None`; a provided value of `0` is
falsy in Python, so it also takes the random branch (this sets the ghost
`glitched` flag). -/
def shareInit (p : Nat) (value : Option Int) (g : RState) : Share × RState :=
  match value with
  | some v =>
    if v ≠ 0 then
      (⟨v % (p : Int)⟩, g)
    else
      let (r, g1) := g.draw
      (⟨(r : Int)⟩, { g1 with glitched := true })
  | none =>
    let (r, g1) := g.draw
    (⟨(r : Int)⟩, g1)

/-- `Share.compute_operation(self, other, operation)` with `other` already
reduced to an integer (`other.value if isinstance(other, Share) else other`):
`return Share(operation(self.value, other))`. -/
def Share.compute_operation (p : Nat) (s : Share) (other : Int)
    (op : Int → Int → Int) (g : RState) : Share × RState :=
  shareInit p (some (op s.value other)) g

/-- `Share.__add__` with a `Share` argument. -/
def Share.addShare (p : Nat) (s o : Share) (g : RState) : Share × RState :=
  Share.compute_operation p s o.value (fun a b => a + b) g

/-- `Share.__add__` with an `int` argument (also `__radd__`, which delegates
to `__add__`). -/
def Share.addInt (p : Nat) (s : Share) (k : Int) (g : RState) : Share × RState :=
  Share.compute_operation p s k (fun a b => a + b) g

/-- `Share.__sub__` with a `Share` argument. -/
def Share.subShare (p : Nat) (s o : Share) (g : RState) : Share × RState :=
  Share.compute_operation p s o.value (fun a b => a - b) g

/-- `Share.__sub__` with an `int` argument. -/
def Share.subInt (p : Nat) (s : Share) (k : Int) (g : RState) : Share × RState :=
  Share.compute_operation p s k (fun a b => a - b) g

/-- `Share.__rsub__(self, other)`: the source returns `self.__sub__(other)`,
i.e. the reflected subtraction `other - self` is computed as `self - other`. -/
def Share.rsub (p : Nat) (s : Share) (k : Int) (g : RState) : Share × RState :=
  Share.subInt p s k g

/-- `Share.__mul__` with a `Share` argument. -/
def Share.mulShare (p : Nat) (s o : Share) (g : RState) : Share × RState :=
  Share.compute_operation p s o.value (fun a b => a * b) g

/-- `Share.__mul__` with an `int` argument (also `__rmul__`, which delegates
to `__mul__`). -/
def Share.mulInt (p : Nat) (s : Share) (k : Int) (g : RState) : Share × RState :=
  Share.compute_operation p s k (fun a b => a * b) g

/-- `[Share() for _ in range(n)]`: a list of `n` default-constructed
(random) shares. -/
def mkRandomShares (p : Nat) : Nat → RState → List Share × RState
  | 0, g => ([], g)
  | n + 1, g =>
    let (s, g1) := shareInit p none g
    let (rest, g2) := mkRandomShares p n g1
    (s :: rest, g2)

/-- `share_secret(secret, num_shares)` (secret_sharing.py lines 99-108):
`num_shares - 1` random shares followed by
`Share(secret - sum(share.value for share in random_shares))`. -/
def share_secret (p : Nat) (secret : Int) (num_shares : Nat) (g : RState) :
    List Share × RState :=
  let (random_shares, g1) := mkRandomShares p (num_shares - 1) g
  let (first_share, g2) :=
    shareInit p (some (secret - (random_shares.map Share.value).sum)) g1
  (random_shares ++ [first_share], g2)

/-- `reconstruct_secret(shares)` (secret_sharing.py lines 111-114):
`sum(share.value for share in shares) % prime`. -/
def reconstruct_secret (p : Nat) (shares : List Share) : Int :=
  (shares.map Share.value).sum % (p : Int)

/-! ## Trusted parameter generator (`ttp.py`) -/

/-- Auxiliary fold for `sum(share_b)` once the accumulator is a `Share`:
each step is `Share.__add__` on two shares. -/
def sumSharesAux (p : Nat) (acc : Share) : List Share → RState → Share × RState
  | [], g => (acc, g)
  | s :: rest, g =>
    let (a, g1) := Share.addShare p acc s g
    sumSharesAux p a rest g1

/-- Python's builtin `sum` over a list of `Share`s.  The fold starts from the
plain int `0`, so the first step is `0 + s`, which dispatches to
`Share.__radd__(0)`, i.e. `s.__add__(0)`.  (`sum([])` would be the int `0`;
the `[]` case is unreachable for a non-empty participant set and is modelled
as the zero share.) -/
def sumShares (p : Nat) (l : List Share) (g : RState) : Share × RState :=
  match l with
  | [] => (⟨0⟩, g)
  | s :: rest =>
    let (acc, g1) := Share.addInt p s 0 g
    sumSharesAux p acc rest g1

/-- One element of the `share_c` list comprehension of
`TrustedParamGenerator.generate_triplets` (ttp.py lines 66-67):
`share_a[i] * share_b[i] + share_a[i] * (sum(share_b) - share_b[i])`,
with Python's left-to-right evaluation order. -/
def computeC (p : Nat) (share_a share_b : List Share) (i : Nat) (g : RState) :
    Share × RState :=
  let ai := share_a.getD i ⟨0⟩
  let bi := share_b.getD i ⟨0⟩
  let (t1, g1) := Share.mulShare p ai bi g
  let (bsum, g2) := sumShares p share_b g1
  let (diff, g3) := Share.subShare p bsum bi g2
  let (t2, g4) := Share.mulShare p ai diff g3
  Share.addShare p t1 t2 g4

/-- The `share_c` list comprehension over a list of indices
(`for i in range(len(share_a))`). -/
def computeCs (p : Nat) (share_a share_b : List Share) :
    List Nat → RState → List Share × RState
  | [], g => ([], g)
  | i :: rest, g =>
    let (c, g1) := computeC p share_a share_b i g
    let (cs, g2) := computeCs p share_a share_b rest g1
    (c :: cs, g2)

/-- `TrustedParamGenerator.generate_triplets` (ttp.py lines 49-69) for a
dealer with `n` registered participants; the returned dict
`{client_id: (share_a[i], share_b[i], share_c[i])}` is modelled as the list of
triples indexed by the participant's enumeration position.  The two secrets
are drawn by `randint(0, prime)`. -/
def generate_triplets (p : Nat) (n : Nat) (g : RState) :
    List (Share × Share × Share) × RState :=
  let (aDraw, g1) := g.draw
  let (share_a, g2) := share_secret p (aDraw : Int) n g1
  let (bDraw, g3) := g2.draw
  let (share_b, g4) := share_secret p (bDraw : Int) n g3
  let (share_c, g5) := computeCs p share_a share_b (List.range share_a.length) g4
  ((List.range n).map
    (fun i => (share_a.getD i ⟨0⟩, share_b.getD i ⟨0⟩, share_c.getD i ⟨0⟩)), g5)

/-! ## Expressions and the party evaluator (`expression.py`, `smc_party.py`) -/

/-- The expression AST (`expression.py`).  Every node carries the identifier
generated by `gen_id` (modelled as a `Nat`); the evaluator uses the ids of
`Secret` nodes (message labels, dictionary keys) and of `Mul` nodes
(Beaver-triplet and broadcast labels). -/
inductive Expr where
  | scalar (value : Int) (id : Nat)
  | secret (id : Nat)
  | add (id : Nat) (left right : Expr)
  | mul (id : Nat) (left right : Expr)
deriving DecidableEq

/-- Result of `SMCParty.process_expression`: `Union[Share, int]`. -/
inductive SVal where
  | share (s : Share)
  | int (n : Int)
deriving DecidableEq

/-- Is the value a `Share`?  (`isinstance(x, Share)`) -/
def SVal.isShare : SVal → Bool
  | .share _ => true
  | .int _ => false

/-- Is the value an `int`?  (`isinstance(x, int)`) -/
def SVal.isInt : SVal → Bool
  | .share _ => false
  | .int _ => true

/-- Association-list lookup with `Nat` keys (Python dict access). -/
def lookupN {α : Type} (m : List (Nat × α)) (k : Nat) : Option α :=
  (m.find? (fun kv => kv.1 == k)).map (fun kv => kv.2)

/-- A party's view of the protocol, fixing its identity and the contents of
the message bus it will observe.
* `isMin` — `self.client_id == min(self.protocol_spec.participant_ids)`;
* `myIdx` — position of this party in `participant_ids`;
* `nParties` — `len(self.protocol_spec.participant_ids)`;
* `valueDict` — `self.value_dict`, keyed by the `Secret` node id;
* `beaver` — `comm.retrieve_beaver_triplet_shares(expr.id.hex())`;
* `dMsgs`/`eMsgs` — the serialized values of the public broadcasts
  `"share: x - a multiplication: <eid> <party>"` and
  `"share: y - b multiplication: <eid> <party>"`, one per participant;
* `privMsg` — the serialized value delivered on the private channel
  `"share <sid>"`;
* `finalMsgs` — the serialized values published as `"final share: <party>"`,
  one per participant. -/
structure PartyCtx where
  isMin : Bool
  myIdx : Nat
  nParties : Nat
  valueDict : List (Nat × Int)
  beaver : Nat → Share × Share × Share
  dMsgs : Nat → List Int
  eMsgs : Nat → List Int
  privMsg : Nat → Int
  finalMsgs : List Int

/-- Mutable per-party state: `self.share_dict` plus the random source. -/
structure PState where
  shareDict : List (Nat × Share)
  rng : RState

/-- `Share.deserialize(serialized)` restores a share as
`Share(**json.loads(serialized))`, i.e. it goes through `Share.__init__` with
the serialized `value` (and therefore re-randomizes a serialized `0`). -/
def Share.deserialize (p : Nat) (v : Int) (g : RState) : Share × RState :=
  shareInit p (some v) g

/-- `map(Share.deserialize, result_shares)` over the list of serialized
values retrieved from the server. -/
def deserializeList (p : Nat) : List Int → RState → List Share × RState
  | [], g => ([], g)
  | v :: rest, g =>
    let (s, g1) := Share.deserialize p v g
    let (ss, g2) := deserializeList p rest g1
    (s :: ss, g2)

/-- `SMCParty.retrieve_and_reconstruct` (smc_party.py lines 188-197) with the
retrieved serialized values given by the oracle list `msgs`. -/
def retrieve_and_reconstruct (p : Nat) (msgs : List Int) (g : RState) :
    Int × RState :=
  let (shares, g1) := deserializeList p msgs g
  (reconstruct_secret p shares, g1)

/-- The tail of `SMCParty.process_add` (smc_party.py lines 134-154) after the
two recursive calls have produced `share_x` and `share_y`. -/
def process_add_combine (p : Nat) (ctx : PartyCtx) (x y : SVal) (g : RState) :
    SVal × RState :=
  if ¬ ctx.isMin = true ∧ (x.isShare = true ∨ y.isShare = true) ∧ x.isInt = true then
    (y, g)
  else if ¬ ctx.isMin = true ∧ (x.isShare = true ∨ y.isShare = true) ∧ y.isInt = true then
    (x, g)
  else
    match x, y with
    | .share a, .share b =>
      let (s, g1) := Share.addShare p a b g
      (.share s, g1)
    | .share a, .int k =>
      let (s, g1) := Share.addInt p a k g
      (.share s, g1)
    | .int k, .share b =>
      -- int + Share dispatches to `Share.__radd__`, i.e. `b.__add__(k)`
      let (s, g1) := Share.addInt p b k g
      (.share s, g1)
    | .int a, .int b => (.int (a + b), g)

/-- The tail of `SMCParty.process_mul` (smc_party.py lines 103-132) after the
two recursive calls have produced `share_x` and `share_y`.  In the
share-by-share branch the party fetches its Beaver triplet, publishes
`share_x - share_a` and `share_y - share_b` (two `Share` constructions), then
reconstructs `D = x - a` and `E = y - b` from everyone's broadcasts and
returns `share_c + E·share_x + D·share_y - D·E·[isMin]` in Python's
evaluation order. -/
def process_mul_combine (p : Nat) (ctx : PartyCtx) (eid : Nat) (x y : SVal)
    (g : RState) : SVal × RState :=
  match x, y with
  | .share sx, .share sy =>
    let (sa, sb, sc) := ctx.beaver eid
    let (_bx, g1) := Share.subShare p sx sa g
    let (_by, g2) := Share.subShare p sy sb g1
    let (value_x_a, g3) := retrieve_and_reconstruct p (ctx.dMsgs eid) g2
    let (value_y_b, g4) := retrieve_and_reconstruct p (ctx.eMsgs eid) g3
    let (t1, g5) := Share.mulInt p sx value_y_b g4
    let (u1, g6) := Share.addShare p sc t1 g5
    let (t2, g7) := Share.mulInt p sy value_x_a g6
    let (u2, g8) := Share.addShare p u1 t2 g7
    let t3 : Int := value_x_a * value_y_b * (if ctx.isMin then 1 else 0)
    let (u3, g9) := Share.subInt p u2 t3 g8
    (.share u3, g9)
  | .share sx, .int k =>
    let (s, g1) := Share.mulInt p sx k g
    (.share s, g1)
  | .int k, .share sy =>
    -- int * Share dispatches to `Share.__rmul__`, i.e. `sy.__mul__(k)`
    let (s, g1) := Share.mulInt p sy k g
    (.share s, g1)
  | .int a, .int b => (.int (a * b), g)

/-- `SMCParty.process_secret` (smc_party.py lines 156-186): cached lookup in
`share_dict`; the owner shares the secret with `share_secret` and keeps the
share at its own position, a non-owner deserializes the privately received
share; either result is cached. -/
def process_secret (p : Nat) (ctx : PartyCtx) (sid : Nat) (st : PState) :
    Share × PState :=
  match lookupN st.shareDict sid with
  | some s => (s, st)
  | none =>
    match lookupN ctx.valueDict sid with
    | some v =>
      let (shares, g1) := share_secret p v ctx.nParties st.rng
      let kept := shares.getD ctx.myIdx ⟨0⟩
      (kept, ⟨st.shareDict ++ [(sid, kept)], g1⟩)
    | none =>
      let (s, g1) := Share.deserialize p (ctx.privMsg sid) st.rng
      (s, ⟨st.shareDict ++ [(sid, s)], g1⟩)

/-- `SMCParty.process_expression` (smc_party.py lines 78-101): visitor
dispatch on the expression type. -/
def process_expression (p : Nat) (ctx : PartyCtx) : Expr → PState → SVal × PState
  | .scalar v _, st => (.int v, st)
  | .secret sid, st =>
    let (s, st1) := process_secret p ctx sid st
    (.share s, st1)
  | .add _ l r, st =>
    let (x, st1) := process_expression p ctx l st
    let (y, st2) := process_expression p ctx r st1
    let (z, g1) := process_add_combine p ctx x y st2.rng
    (z, { st2 with rng := g1 })
  | .mul eid l r, st =>
    let (x, st1) := process_expression p ctx l st
    let (y, st2) := process_expression p ctx r st1
    let (z, g1) := process_mul_combine p ctx eid x y st2.rng
    (z, { st2 with rng := g1 })

/-- `SMCParty.run` (smc_party.py lines 59-76): evaluate the expression, call
`share.serialize()` on the result — an `AttributeError` when the result is a
plain `int` — publish it, then retrieve everyone's final share and
reconstruct. -/
def run (p : Nat) (ctx : PartyCtx) (expr : Expr) (st : PState) :
    Except String Int :=
  let (v, st1) := process_expression p ctx expr st
  match v with
  | .int _ => .error "AttributeError: int object has no attribute serialize"
  | .share _ =>
    let (shares, _) := deserializeList p ctx.finalMsgs st1.rng
    .ok (reconstruct_secret p shares)

/-- Does the expression contain a `Secret` node? -/
def containsSecret : Expr → Bool
  | .scalar _ _ => false
  | .secret _ => true
  | .add _ l r => containsSecret l || containsSecret r
  | .mul _ l r => containsSecret l || containsSecret r

/-- The integer carried by a `process_expression` result (the share's field
value, or the plain int itself). -/
def svalValue : SVal → Int
  | .share s => s.value
  | .int n => n

end Smc

namespace Cred

/-!
## PS credentials (`credential.py`)

The Type-3 pairing groups `G1`, `G2`, `GT` are cyclic of prime order `p`
with fixed generators `g`, `g̃`, `e(g, g̃)`.  A group element is represented
by its discrete logarithm with respect to the group's generator, an element
of `ZMod p`; this is an isomorphism of each group onto `(ZMod p, +)`.  Under
it the library operations of `petrelic` become:
* multiplication of group elements — addition in `ZMod p`;
* exponentiation by a `Bn` scalar — multiplication by the scalar's image;
* the pairing `e(g^a, g̃^b) = e(g, g̃)^(a·b)` — multiplication in `ZMod p`;
* the neutral element — `0`; the generator — `1`.
`Bn` big integers are modelled as `Int` (petrelic `Bn` arithmetic on scalars
is plain arbitrary-precision integer arithmetic).
-/

/-- A Python value as it appears in attribute maps: either an `int` or a byte
string (a list of byte values).  Python's `==` between an `int` and a `bytes`
object is `False`, which the derived decidable equality mirrors (distinct
constructors are never equal). -/
inductive PyVal where
  | int (i : Int)
  | bytes (b : List Nat)
deriving DecidableEq

/-- Group element multiplication (discrete-log representation). -/
def Gmul (p : Nat) (a b : ZMod p) : ZMod p := a + b

/-- Group element exponentiation by a `Bn` scalar. -/
def Gpow (p : Nat) (a : ZMod p) (e : Int) : ZMod p := a * (e : ZMod p)

/-- `G1.neutral_element()` / `G2.neutral_element()`. -/
def Gneutral (p : Nat) : ZMod p := 0

/-- `G1.generator()` / `G2.generator()`. -/
def Ggen (p : Nat) : ZMod p := 1

/-- The pairing `e : G1 × G2 → GT` in the discrete-log representation. -/
def pairE (p : Nat) (a b : ZMod p) : ZMod p := a * b

/-- `Bn.from_binary`: big-endian interpretation of a byte string. -/
def bnFromBinary (b : List Nat) : Int :=
  (b.foldl (fun acc d => acc * 256 + d) 0 : Nat)

/-- `Bn.from_binary` applied to a `PyVal`: defined only on byte strings
(`Bn.from_binary` raises a `TypeError` on an `int`). -/
def bnFromBinaryVal : PyVal → Option Int
  | .bytes b => some (bnFromBinary b)
  | .int _ => none

/-- `bn_from_binary_collection` on a dict (`{key: Bn.from_binary(binary)}`). -/
def bnFromBinaryCollectionD (m : List (Nat × PyVal)) :
    Option (List (Nat × Int)) :=
  m.mapM (fun kv => (bnFromBinaryVal kv.2).map (fun v => (kv.1, v)))

/-- Association-list lookup with `Nat` keys (Python dict access; `none` is a
`KeyError`). -/
def lookupD {α : Type} (m : List (Nat × α)) (k : Nat) : Option α :=
  (m.find? (fun kv => kv.1 == k)).map (fun kv => kv.2)

/-- `k in m.keys()` for a dict with `Nat` keys. -/
def hasKeyD {α : Type} (m : List (Nat × α)) (k : Nat) : Bool :=
  m.any (fun kv => kv.1 == k)

/-- `point_product(points, exponents, shift)` (credential.py lines 423-446),
list branch: `math.prod([point ** exp ...], start=shift)` after the assertion
`len(points) == len(exponents)` (a failed assertion is `none`). -/
def pointProductL (p : Nat) (points : List (ZMod p)) (exponents : List Int)
    (shift : ZMod p) : Option (ZMod p) :=
  if points.length = exponents.length then
    some (shift + (List.zipWith (fun pt e => Gpow p pt e) points exponents).sum)
  else
    none

/-- `point_product`, dict branch: `[points[key] ** exponents[key] for key in
points.keys()]` after the same length assertion; a missing exponent key is a
`KeyError` (`none`). -/
def pointProductD (p : Nat) (points : List (Nat × ZMod p))
    (exponents : List (Nat × Int)) (shift : ZMod p) : Option (ZMod p) := do
  if points.length = exponents.length then
    let terms ← points.mapM
      (fun kv => (lookupD exponents kv.1).map (fun e => Gpow p kv.2 e))
    return shift + terms.sum
  else
    none

/-- `trivial_check(point)`: the point is not the neutral element. -/
def trivial_check (p : Nat) (point : ZMod p) : Bool :=
  decide (point ≠ Gneutral p)

/-- Issuer secret key `(x, X, y)`. -/
structure SecKey (p : Nat) where
  x : Int
  X : ZMod p
  y : List Int

/-- Issuer public key `(g, Y, g̃, X̃, Ỹ)`. -/
structure PubKey (p : Nat) where
  g : ZMod p
  Y : List (ZMod p)
  gt : ZMod p
  Xt : ZMod p
  Yt : List (ZMod p)

/-- `generate_key(attributes)` (credential.py lines 45-63).  The random
scalars drawn by `G1.order().random()` are supplied explicitly: `x`, and
`ys i` for the `i`-th attribute. -/
def generate_key (p : Nat) (attributes : List String) (x : Int)
    (ys : Nat → Int) : SecKey p × PubKey p :=
  let y := (List.range attributes.length).map (fun i => ys i)
  let g := Ggen p
  let g_tilde := Ggen p
  let X := Gpow p g x
  let X_tilde := Gpow p g_tilde x
  let Y := y.map (fun yi => Gpow p g yi)
  let Y_tilde := y.map (fun yi => Gpow p g_tilde yi)
  (⟨x, X, y⟩, ⟨g, Y, g_tilde, X_tilde, Y_tilde⟩)

/-- `sign(sk, msgs)` (credential.py lines 66-82): assert
`len(msgs) == len(y)`, pick `h = G1.generator()`, return
`(h, h ** (x + sum(y_i * Bn.from_binary(msg))))`. -/
def sign (p : Nat) (sk : SecKey p) (msgs : List (List Nat)) :
    Option (ZMod p × ZMod p) :=
  if msgs.length = sk.y.length then
    let h := Ggen p
    some (h, Gpow p h
      (sk.x + (List.zipWith (fun yi msg => yi * bnFromBinary msg) sk.y msgs).sum))
  else
    none

/-- `verify(pk, signature, msgs)` (credential.py lines 85-102): compute
`point_product(Y_tilde, [h(msg)], X_tilde)` (its assertion can fail), then
check `trivial_check(σ1) and e(σ1, product) == e(σ2, g̃)`. -/
def verify (p : Nat) (pk : PubKey p) (signature : ZMod p × ZMod p)
    (msgs : List (List Nat)) : Option Bool := do
  let product ← pointProductL p pk.Yt (msgs.map bnFromBinary) pk.Xt
  return (trivial_check p signature.1 &&
    decide (pairE p signature.1 product = pairE p signature.2 pk.gt))

/-- A disclosure proof
`((s1, s2), (commit, alpha, s, T), indexed_disclosed_attributes)`. -/
structure DiscProof (p : Nat) where
  s1 : ZMod p
  s2 : ZMod p
  commit : ZMod p
  alpha : ZMod p
  s : List (Nat × Int)
  T : Int
  disclosed : List (Nat × PyVal)
deriving DecidableEq

/-- The Fiat–Shamir hash for the showing protocol,
`get_disclosure_challenge(pk, randomized_signature, commitment, message,
alpha)` — SHA-256 over a `jsonpickle` encoding, modelled as an oracle. -/
def DiscHash (p : Nat) : Type :=
  PubKey p → ZMod p × ZMod p → ZMod p → List Nat → ZMod p → Int

/-- `get_disclosure_proof(pk, hidden_attributes, full_credentials,
randomized_signature, t, message)` (credential.py lines 357-418).  The random
scalars are `z_prime` and `zs i` for hidden index `i`; `Hd` is the
Fiat–Shamir oracle.  Note that the hidden attribute map is computed by VALUE
membership: `{i: attribute for i, attribute in full_credentials.items() if
attribute in hidden_attributes}`. -/
def get_disclosure_proof (p : Nat) (Hd : DiscHash p) (pk : PubKey p)
    (hidden_attributes : List PyVal) (full_credentials : List (Nat × PyVal))
    (randomized_signature : ZMod p × ZMod p) (t : Int) (message : List Nat)
    (z_prime : Int) (zs : Nat → Int) :
    Option ((ZMod p × ZMod p × List (Nat × Int) × Int) × List (Nat × PyVal)) := do
  let indexed_hidden_attributes :=
    full_credentials.filter (fun kv => hidden_attributes.contains kv.2)
  let s1 := randomized_signature.1
  let Y_pair_terms ← indexed_hidden_attributes.mapM
    (fun kv => (pk.Yt.get? kv.1).map (fun y => (kv.1, pairE p s1 y)))
  let z := indexed_hidden_attributes.map (fun kv => (kv.1, zs kv.1))
  let hiddenBn ← bnFromBinaryCollectionD indexed_hidden_attributes
  let commit ← pointProductD p Y_pair_terms hiddenBn
    (Gpow p (pairE p s1 pk.gt) t)
  let alpha ← pointProductD p Y_pair_terms z
    (Gpow p (pairE p s1 pk.gt) z_prime)
  let challenge := Hd pk randomized_signature commit message alpha
  let T := z_prime + challenge * t
  let s ← indexed_hidden_attributes.mapM
    (fun kv => (bnFromBinaryVal kv.2).map
      (fun a => (kv.1, zs kv.1 + challenge * a)))
  return ((commit, alpha, s, T), indexed_hidden_attributes)

/-- `create_disclosure_proof(pk, credential, hidden_attributes, message)`
(credential.py lines 292-318).  `r` and `t` are the random scalars of the
signature randomization. -/
def create_disclosure_proof (p : Nat) (Hd : DiscHash p) (pk : PubKey p)
    (credential : (ZMod p × ZMod p) × List (Nat × PyVal))
    (hidden_attributes : List PyVal) (message : List Nat) (r t : Int)
    (z_prime : Int) (zs : Nat → Int) : Option (DiscProof p) := do
  let (signature, full_credentials) := credential
  let randomized_signature :=
    (Gpow p signature.1 r, Gpow p (Gmul p signature.2 (Gpow p signature.1 t)) r)
  let (proof, indexed_hidden_credentials) ←
    get_disclosure_proof p Hd pk hidden_attributes full_credentials
      randomized_signature t message z_prime zs
  let indexed_disclosed_credentials :=
    full_credentials.filter
      (fun kv => ¬ hasKeyD indexed_hidden_credentials kv.1 = true)
  return ⟨randomized_signature.1, randomized_signature.2,
    proof.1, proof.2.1, proof.2.2.1, proof.2.2.2,
    indexed_disclosed_credentials⟩

/-- `verify_disclosure_proof(pk, disclosure_proof, message)` (credential.py
lines 321-354). -/
def verify_disclosure_proof (p : Nat) (Hd : DiscHash p) (pk : PubKey p)
    (dp : DiscProof p) (message : List Nat) : Option Bool := do
  let challenge := Hd pk (dp.s1, dp.s2) dp.commit message dp.alpha
  let disclosed_paired_terms :=
    (pk.Yt.enum.filter (fun iy => hasKeyD dp.disclosed iy.1)).map
      (fun iy => (iy.1, pairE p dp.s1 iy.2))
  let hidden_paired_terms :=
    (pk.Yt.enum.filter (fun iy => hasKeyD dp.s iy.1)).map
      (fun iy => (iy.1, pairE p dp.s1 iy.2))
  let disclosedBn ← bnFromBinaryCollectionD dp.disclosed
  let exponents := disclosedBn.map (fun kv => (kv.1, -kv.2))
  let disclosed_terms_product ← pointProductD p disclosed_paired_terms
    exponents (pairE p dp.s2 pk.gt)
  let hidden_terms_product ← pointProductD p hidden_paired_terms dp.s
    (Gpow p (pairE p dp.s1 pk.gt) dp.T)
  return (trivial_check p dp.s1 &&
    decide (Gmul p (Gpow p dp.commit challenge) dp.alpha = hidden_terms_product) &&
    decide (Gmul p (pairE p dp.s1 pk.Xt) dp.commit = disclosed_terms_product))

end Cred

namespace Stroll

open Cred

/-!
## Server / Client façade (`stroll.py`)

Serialization (`jsonpickle`) is a bijective encoding of the structures that
cross the wire; the embedded functions take the decoded structures directly.
-/

/-- Association-list lookup with `String` keys (`none` is a `KeyError`). -/
def lookupS {α : Type} (m : List (String × α)) (k : String) : Option α :=
  (m.find? (fun kv => kv.1 == k)).map (fun kv => kv.2)

/-- Python dict insertion: update the value in place if the key exists,
otherwise append the binding. -/
def dictInsert (m : List (String × Nat)) (k : String) (v : Nat) :
    List (String × Nat) :=
  if m.any (fun kv => kv.1 == k) then
    m.map (fun kv => if kv.1 == k then (k, v) else kv)
  else
    m ++ [(k, v)]

/-- `{subscription: i for i, subscription in enumerate(subscriptions)}`. -/
def buildSubscriptionMap (subscriptions : List String) : List (String × Nat) :=
  (subscriptions.enum.map (fun iv => (iv.2, iv.1))).foldl
    (fun m kv => dictInsert m kv.1 kv.2) []

/-- The attribute list `Server.generate_ca` passes to `generate_key`
(stroll.py line 53): `subscriptions + ["password"]`. -/
def generate_ca_attribute_list (subscriptions : List String) : List String :=
  subscriptions ++ ["password"]

/-- `Server.generate_ca(subscriptions)` (stroll.py lines 28-57): build the
subscription map, add `"password"` at index `len(subscriptions)`, and call
`generate_key(subscriptions + ["password"])`.  The returned pair is the
decoded content of the two serialized values
`(sk, (pk, subscriptionMap))`. -/
def generate_ca (p : Nat) (subscriptions : List String) (x : Int)
    (ys : Nat → Int) : SecKey p × (PubKey p × List (String × Nat)) :=
  let subscriptionMap :=
    dictInsert (buildSubscriptionMap subscriptions) "password"
      subscriptions.length
  let kp := generate_key p (generate_ca_attribute_list subscriptions) x ys
  (kp.1, (kp.2, subscriptionMap))

/-- `Server.check_request_signature(server_pk, message, revealed_attributes,
signature)` (stroll.py lines 116-139): deserialize the bundle, keep its
first component, and run `verify_disclosure_proof`; `revealed_attributes` is
not used. -/
def check_request_signature (p : Nat) (Hd : DiscHash p)
    (server_pk : PubKey p × List (String × Nat)) (message : List Nat)
    (revealed_attributes : List String) (signature : DiscProof p) :
    Option Bool :=
  verify_disclosure_proof p Hd server_pk.1 signature message

/-- The hidden-attribute computation of `Client.sign_request` (stroll.py
lines 263-268): `subscription_indices = set(subscriptionMap[t] for t in
types)` followed by `hidden_attributes = list(map(int,
set(full_attributes.keys()) - subscription_indices))` — the complement, BY
INDEX, of the disclosed indices inside the credential's key set, as a list
of Python `int`s. -/
def sign_request_hidden (subscriptionMap : List (String × Nat))
    (full_attributes : List (Nat × PyVal)) (types : List String) :
    Option (List PyVal) := do
  let subscription_indices ← types.mapM (fun ty => lookupS subscriptionMap ty)
  return ((full_attributes.map (fun kv => kv.1)).filter
    (fun k => ¬ subscription_indices.contains k = true)).map
    (fun k => PyVal.int (k : Int))

/-- `Client.sign_request(server_pk, credentials, message, types)` (stroll.py
lines 230-275): refuse to reveal `"password"`; compute the hidden list with
`sign_request_hidden` and hand it to `create_disclosure_proof`. -/
def sign_request (p : Nat) (Hd : DiscHash p)
    (server_pk : PubKey p × List (String × Nat))
    (credential : (ZMod p × ZMod p) × List (Nat × PyVal)) (message : List Nat)
    (types : List String) (r t z_prime : Int) (zs : Nat → Int) :
    Option (DiscProof p) := do
  let (pk, subscriptionMap) := server_pk
  let full_attributes := credential.2
  if types.contains "password" then
    none
  else
    let hidden_attributes ←
      sign_request_hidden subscriptionMap full_attributes types
    create_disclosure_proof p Hd pk credential hidden_attributes message
      r t z_prime zs

end Stroll

/-! # Theorems -/

namespace Smc

/-- `a % n` is congruent to `a` modulo `n`. -/
theorem emod_modEq (a n : Int) : Int.ModEq n (a % n) a :=
  Int.emod_emod_of_dvd a dvd_rfl

/-- A cons-free description of `shareInit` on a provided value, available
whenever the run did not set the glitch flag: the value was nonzero and the
share is its reduction mod `p`, with the random state untouched. -/
theorem shareInit_some_eq {p : Nat} {v : Int} {g : RState}
    (h : (shareInit p (some v) g).2.glitched = false) :
    shareInit p (some v) g = (⟨v % (p : Int)⟩, g) ∧ v ≠ 0 := by
  by_cases hv : v = 0
  · subst hv
    simp [shareInit, RState.draw] at h
  · exact ⟨by simp [shareInit, hv], hv⟩

/-- The glitch flag is monotone under `shareInit`. -/
theorem shareInit_mono {p : Nat} {v : Option Int} {g : RState}
    (h : g.glitched = true) : (shareInit p v g).2.glitched = true := by
  cases v with
  | none => simpa [shareInit, RState.draw] using h
  | some v =>
    by_cases hv : v = 0 <;> simp [shareInit, hv, RState.draw, h]

/-- `compute_operation` under a glitch-free run. -/
theorem compute_operation_eq {p : Nat} {s : Share} {k : Int}
    {op : Int → Int → Int} {g : RState}
    (h : (Share.compute_operation p s k op g).2.glitched = false) :
    Share.compute_operation p s k op g = (⟨op s.value k % (p : Int)⟩, g) ∧
      op s.value k ≠ 0 :=
  shareInit_some_eq h

theorem addShare_eq {p : Nat} {a b : Share} {g : RState}
    (h : (Share.addShare p a b g).2.glitched = false) :
    Share.addShare p a b g = (⟨(a.value + b.value) % (p : Int)⟩, g) ∧
      a.value + b.value ≠ 0 :=
  shareInit_some_eq h

theorem addInt_eq {p : Nat} {a : Share} {k : Int} {g : RState}
    (h : (Share.addInt p a k g).2.glitched = false) :
    Share.addInt p a k g = (⟨(a.value + k) % (p : Int)⟩, g) ∧
      a.value + k ≠ 0 :=
  shareInit_some_eq h

theorem subShare_eq {p : Nat} {a b : Share} {g : RState}
    (h : (Share.subShare p a b g).2.glitched = false) :
    Share.subShare p a b g = (⟨(a.value - b.value) % (p : Int)⟩, g) ∧
      a.value - b.value ≠ 0 :=
  shareInit_some_eq h

theorem subInt_eq {p : Nat} {a : Share} {k : Int} {g : RState}
    (h : (Share.subInt p a k g).2.glitched = false) :
    Share.subInt p a k g = (⟨(a.value - k) % (p : Int)⟩, g) ∧
      a.value - k ≠ 0 :=
  shareInit_some_eq h

theorem mulShare_eq {p : Nat} {a b : Share} {g : RState}
    (h : (Share.mulShare p a b g).2.glitched = false) :
    Share.mulShare p a b g = (⟨(a.value * b.value) % (p : Int)⟩, g) ∧
      a.value * b.value ≠ 0 :=
  shareInit_some_eq h

theorem mulInt_eq {p : Nat} {a : Share} {k : Int} {g : RState}
    (h : (Share.mulInt p a k g).2.glitched = false) :
    Share.mulInt p a k g = (⟨(a.value * k) % (p : Int)⟩, g) ∧
      a.value * k ≠ 0 :=
  shareInit_some_eq h

end Smc

/-- C2 counterexample: with `p = 11`, secret `v = 5`, `N = 2` and the random
source producing `5` then `1` (both valid `randint(0, p-1)` outputs), the
single random share is `5`, so the final `Share(5 - 5)` hits the falsy-zero
branch of `Share.__init__` and draws the random value `1` instead of `0`;
reconstruction yields `6`, not `5`. -/
theorem C2_counterexample :
    Smc.reconstruct_secret 11
      (Smc.share_secret 11 5 2 ⟨fun i => if i = 0 then 5 else 1, 0, false⟩).1 ≠ 5 := by
  decide

/-- C2 (amended): for every secret `0 ≤ v < p`, every `N ≥ 2` and every
sequence of random choices such that `v` minus the sum of the `N - 1` drawn
random shares is nonzero as an integer (so the falsy-zero fallback of
`Share.__init__` does not fire on the last share),
`reconstruct_secret (share_secret v N) = v`. -/
theorem C2_share_reconstruct (p : Nat) (v : Int) (N : Nat) (g : Smc.RState)
    (hv0 : 0 ≤ v) (hvp : v < (p : Int)) (_hN : 2 ≤ N)
    (hnz : v - ((Smc.mkRandomShares p (N - 1) g).1.map Smc.Share.value).sum ≠ 0) :
    Smc.reconstruct_secret p (Smc.share_secret p v N g).1 = v := by
  rcases h1 : Smc.mkRandomShares p (N - 1) g with ⟨rs, g1⟩
  rw [h1] at hnz
  simp only at hnz
  have hss : Smc.share_secret p v N g
      = (rs ++ [⟨(v - (rs.map Smc.Share.value).sum) % (p : Int)⟩], g1) := by
    simp [Smc.share_secret, h1, Smc.shareInit, hnz]
  rw [hss]
  unfold Smc.reconstruct_secret
  simp only [List.map_append, List.map_cons, List.map_nil, List.sum_append,
    List.sum_cons, List.sum_nil, add_zero]
  have h2 := (Smc.emod_modEq (v - (rs.map Smc.Share.value).sum) (p : Int)).add_left
    ((rs.map Smc.Share.value).sum)
  have h3 : (rs.map Smc.Share.value).sum +
      (v - (rs.map Smc.Share.value).sum) = v := by ring
  rw [h3] at h2
  calc ((rs.map Smc.Share.value).sum +
          (v - (rs.map Smc.Share.value).sum) % (p : Int)) % (p : Int)
      = v % (p : Int) := h2
    _ = v := Int.emod_eq_of_lt hv0 hvp

/-- C2 witness: `p = 11`, `v = 5`, `N = 2`, random source constantly `3`. -/
theorem C2_share_reconstruct_witness :
    Smc.reconstruct_secret 11
      (Smc.share_secret 11 5 2 ⟨fun _ => 3, 0, false⟩).1 = 5 :=
  C2_share_reconstruct 11 5 2 ⟨fun _ => 3, 0, false⟩
    (by decide) (by decide) (by decide) (by decide)

/-- C8: `Share(0)` behaves exactly like `Share()` — the argument `0` is falsy,
so a fresh random field element is drawn; consequently
`compute_operation` returns a random share whenever the integer result of the
operation is exactly `0`. -/
theorem C8_share_zero_is_random (p : Nat) (s : Smc.Share) (k : Int)
    (op : Int → Int → Int) (g : Smc.RState) :
    (Smc.shareInit p (some 0) g).1 = (Smc.shareInit p none g).1 ∧
    (Smc.shareInit p (some 0) g).1.value = (g.seq g.idx : Int) ∧
    (op s.value k = 0 →
      (Smc.Share.compute_operation p s k op g).1.value = (g.seq g.idx : Int)) := by
  refine ⟨by simp [Smc.shareInit, Smc.RState.draw], by simp [Smc.shareInit, Smc.RState.draw], ?_⟩
  intro h
  simp [Smc.Share.compute_operation, Smc.shareInit, h, Smc.RState.draw]

/-- C8 witness: with the random stream constantly `7`, `Share(0)` equals
`Share()`, and `Share(3) + (-3)` — whose intermediate integer result is `0` —
is the random share `7` rather than the zero share. -/
theorem C8_share_zero_is_random_witness :
    (Smc.shareInit 11 (some 0) ⟨fun _ => 7, 0, false⟩).1
      = (Smc.shareInit 11 none ⟨fun _ => 7, 0, false⟩).1 ∧
    (Smc.Share.compute_operation 11 ⟨3⟩ (-3) (fun a b => a + b)
      ⟨fun _ => 7, 0, false⟩).1.value = 7 ∧
    (7 : Int) ≠ 0 :=
  ⟨(C8_share_zero_is_random 11 ⟨3⟩ (-3) (fun a b => a + b) ⟨fun _ => 7, 0, false⟩).1,
   (C8_share_zero_is_random 11 ⟨3⟩ (-3) (fun a b => a + b) ⟨fun _ => 7, 0, false⟩).2.2
     (by decide),
   by decide⟩

/-- C9: when `s.value` is not congruent to `k` mod `p`, the reflected
subtraction `k - s` (`Share.__rsub__`) returns the same share as `s - k`,
with value `(s.value - k) % p` — not `(k - s.value) % p`. -/
theorem C9_rsub_is_sub (p : Nat) (s : Smc.Share) (k : Int) (g : Smc.RState)
    (h : s.value % (p : Int) ≠ k % (p : Int)) :
    Smc.Share.rsub p s k g = Smc.Share.subInt p s k g ∧
    (Smc.Share.rsub p s k g).1.value = (s.value - k) % (p : Int) := by
  refine ⟨rfl, ?_⟩
  have hne : s.value - k ≠ 0 := by
    intro h0
    have hk : s.value = k := by omega
    exact h (by rw [hk])
  simp [Smc.Share.rsub, Smc.Share.subInt, Smc.Share.compute_operation,
    Smc.shareInit, hne]

/-- C9 witness: `p = 11`, `s = Share(4)`, `k = 2`. -/
theorem C9_rsub_is_sub_witness :
    Smc.Share.rsub 11 ⟨4⟩ 2 ⟨fun _ => 0, 0, false⟩
      = Smc.Share.subInt 11 ⟨4⟩ 2 ⟨fun _ => 0, 0, false⟩ ∧
    (Smc.Share.rsub 11 ⟨4⟩ 2 ⟨fun _ => 0, 0, false⟩).1.value
      = ((4 : Int) - 2) % (11 : Int) :=
  C9_rsub_is_sub 11 ⟨4⟩ 2 ⟨fun _ => 0, 0, false⟩ (by decide)

/-- Every secret-free expression evaluates to a plain Python `int`. -/
theorem processExpr_int_of_noSecret (p : Nat) (ctx : Smc.PartyCtx) :
    ∀ (e : Smc.Expr) (st : Smc.PState), Smc.containsSecret e = false →
      ∃ n : Int, (Smc.process_expression p ctx e st).1 = .int n := by
  intro e
  induction e with
  | scalar v id => exact fun st _ => ⟨v, rfl⟩
  | secret id => intro st h; simp [Smc.containsSecret] at h
  | add id l r ihl ihr =>
    intro st h
    simp only [Smc.containsSecret, Bool.or_eq_false_iff] at h
    obtain ⟨a, ha⟩ := ihl st h.1
    rcases hl : Smc.process_expression p ctx l st with ⟨x, st1⟩
    rw [hl] at ha
    obtain ⟨b, hb⟩ := ihr st1 h.2
    rcases hr : Smc.process_expression p ctx r st1 with ⟨y, st2⟩
    rw [hr] at hb
    simp only at ha hb
    subst ha hb
    refine ⟨a + b, ?_⟩
    simp [Smc.process_expression, hl, hr, Smc.process_add_combine,
      Smc.SVal.isShare, Smc.SVal.isInt]
  | mul id l r ihl ihr =>
    intro st h
    simp only [Smc.containsSecret, Bool.or_eq_false_iff] at h
    obtain ⟨a, ha⟩ := ihl st h.1
    rcases hl : Smc.process_expression p ctx l st with ⟨x, st1⟩
    rw [hl] at ha
    obtain ⟨b, hb⟩ := ihr st1 h.2
    rcases hr : Smc.process_expression p ctx r st1 with ⟨y, st2⟩
    rw [hr] at hb
    simp only at ha hb
    subst ha hb
    refine ⟨a * b, ?_⟩
    simp [Smc.process_expression, hl, hr, Smc.process_mul_combine]

/-- C10: on a protocol whose expression contains no `Secret` node,
`process_expression` returns a plain `int`, and `SMCParty.run` fails when it
calls `.serialize()` on that `int` — it never returns a result. -/
theorem C10_no_secret_run_fails (p : Nat) (ctx : Smc.PartyCtx) (e : Smc.Expr)
    (st : Smc.PState) (h : Smc.containsSecret e = false) :
    (Smc.process_expression p ctx e st).1.isInt = true ∧
    Smc.run p ctx e st
      = .error "AttributeError: int object has no attribute serialize" := by
  obtain ⟨n, hn⟩ := processExpr_int_of_noSecret p ctx e st h
  refine ⟨by rw [hn]; rfl, ?_⟩
  rcases hpe : Smc.process_expression p ctx e st with ⟨v, st1⟩
  rw [hpe] at hn
  simp only at hn
  subst hn
  simp [Smc.run, hpe]

/-- C10 witness: a lone `Scalar(5)` with a single party. -/
theorem C10_no_secret_run_fails_witness :
    (Smc.process_expression 11
      ⟨true, 0, 1, [], fun _ => (⟨0⟩, ⟨0⟩, ⟨0⟩), fun _ => [], fun _ => [],
        fun _ => 0, []⟩
      (Smc.Expr.scalar 5 0) ⟨[], ⟨fun _ => 0, 0, false⟩⟩).1.isInt = true ∧
    Smc.run 11
      ⟨true, 0, 1, [], fun _ => (⟨0⟩, ⟨0⟩, ⟨0⟩), fun _ => [], fun _ => [],
        fun _ => 0, []⟩
      (Smc.Expr.scalar 5 0) ⟨[], ⟨fun _ => 0, 0, false⟩⟩
      = .error "AttributeError: int object has no attribute serialize" :=
  C10_no_secret_run_fails 11 _ (Smc.Expr.scalar 5 0) _ (by decide)

/-- C5: `Server.check_request_signature` never reads its
`revealed_attributes` argument; its result is determined by the public-key
bundle, the message and the signature alone — any two revealed-attribute
lists give the same boolean. -/
theorem C5_check_request_signature_ignores_revealed (p : Nat)
    (Hd : Cred.DiscHash p) (server_pk : Cred.PubKey p × List (String × Nat))
    (message : List Nat) (r1 r2 : List String) (signature : Cred.DiscProof p) :
    Stroll.check_request_signature p Hd server_pk message r1 signature =
    Stroll.check_request_signature p Hd server_pk message r2 signature :=
  rfl

/-- C4 fails on the code: `generate_ca(["restaurant"])` passes the attribute
list `["restaurant", "password"]` to `generate_key` — the reserved slot
`"username"` is never appended — and the subscription map of the public
bundle has an entry for `"password"` (index 1) but none for `"username"`. -/
theorem C4_generate_ca_missing_username (p : Nat) (x : Int) (ys : Nat → Int) :
    Stroll.generate_ca_attribute_list ["restaurant"]
      = ["restaurant", "password"] ∧
    (Stroll.generate_ca_attribute_list ["restaurant"]).contains "username"
      = false ∧
    Stroll.lookupS (Stroll.generate_ca p ["restaurant"] x ys).2.2 "username"
      = none ∧
    Stroll.lookupS (Stroll.generate_ca p ["restaurant"] x ys).2.2 "password"
      = some 1 :=
  ⟨rfl, rfl, rfl, rfl⟩

/-- Pulling `Bn.from_binary` out of the signing sum. -/
theorem zipWith_bnFromBinary (y : List Int) :
    ∀ msgs : List (List Nat),
      List.zipWith (fun yi msg => yi * Cred.bnFromBinary msg) y msgs
        = List.zipWith (fun a b => a * b) y (msgs.map Cred.bnFromBinary) := by
  induction y with
  | nil => intro msgs; simp
  | cons a ytl ih =>
    intro msgs
    cases msgs with
    | nil => simp
    | cons m mtl => simp [ih]

/-- The verifier's product of paired generators, in the discrete-log
representation, is the cast of the signer's integer exponent sum. -/
theorem verify_product_cast (p : Nat) (y : List Int) :
    ∀ es : List Int,
      (List.zipWith (fun pt e => Cred.Gpow p pt e)
          (y.map (fun yi => Cred.Gpow p (Cred.Ggen p) yi)) es).sum
        = (((List.zipWith (fun a b => a * b) y es).sum : Int) : ZMod p) := by
  induction y with
  | nil => intro es; cases es <;> simp
  | cons a ytl ih =>
    intro es
    cases es with
    | nil => simp
    | cons b estl =>
      simp only [List.map_cons, List.zipWith_cons_cons, List.sum_cons, ih]
      push_cast
      simp [Cred.Gpow, Cred.Ggen]

/-- C6: for every key pair produced by `generate_key` on an attribute list of
length `L` and every message vector of exactly `L` byte strings,
`verify(pk, sign(sk, m), m)` succeeds and returns `true`. -/
theorem C6_sign_then_verify (p : Nat) (hp : 1 < p) (attributes : List String)
    (x : Int) (ys : Nat → Int) (msgs : List (List Nat))
    (hlen : msgs.length = attributes.length) :
    ((Cred.sign p (Cred.generate_key p attributes x ys).1 msgs).bind
      (fun s => Cred.verify p (Cred.generate_key p attributes x ys).2 s msgs))
      = some true := by
  haveI : Fact (1 < p) := ⟨hp⟩
  have hylen : ((List.range attributes.length).map (fun i => ys i)).length
      = attributes.length := by simp
  unfold Cred.generate_key Cred.sign Cred.verify Cred.pointProductL
  simp only
  rw [if_pos (by rw [hlen, hylen]), if_pos (by simp [hlen])]
  simp only [Option.bind_eq_bind, Option.some_bind, Option.pure_def]
  rw [Option.some_inj]
  rw [Bool.and_eq_true]
  constructor
  · simp only [Cred.trivial_check, Cred.Ggen, Cred.Gneutral, decide_eq_true_eq]
    exact one_ne_zero
  · rw [decide_eq_true_eq]
    rw [zipWith_bnFromBinary, verify_product_cast]
    simp only [Cred.pairE, Cred.Gpow, Cred.Ggen]
    push_cast
    ring

namespace Smc

/-- The glitch flag is monotone under the `sum` fold over shares. -/
theorem sumSharesAux_mono {p : Nat} :
    ∀ (l : List Share) (acc : Share) (g : RState), g.glitched = true →
      (sumSharesAux p acc l g).2.glitched = true := by
  intro l
  induction l with
  | nil => intro acc g h; exact h
  | cons s rest ih =>
    intro acc g h
    rcases h1 : Share.addShare p acc s g with ⟨a, g1⟩
    have hg1 : g1.glitched = true := by
      have := shareInit_mono (p := p)
        (v := some (acc.value + s.value)) (g := g) h
      rw [show (shareInit p (some (acc.value + s.value)) g)
            = (a, g1) from h1] at this
      exact this
    simp only [sumSharesAux, h1]
    exact ih a g1 hg1

theorem sumShares_mono {p : Nat} {l : List Share} {g : RState}
    (h : g.glitched = true) : (sumShares p l g).2.glitched = true := by
  cases l with
  | nil => exact h
  | cons s rest =>
    rcases h1 : Share.addInt p s 0 g with ⟨a, g1⟩
    have hg1 : g1.glitched = true := by
      have := shareInit_mono (p := p) (v := some (s.value + 0)) (g := g) h
      rw [show (shareInit p (some (s.value + 0)) g) = (a, g1) from h1] at this
      exact this
    simp only [sumShares, h1]
    exact sumSharesAux_mono rest a g1 hg1

/-- A glitch-free `sum` of shares leaves the random state untouched and is
congruent to the integer sum of the share values. -/
theorem sumSharesAux_spec {p : Nat} :
    ∀ (l : List Share) (acc : Share) (g : RState),
      (sumSharesAux p acc l g).2.glitched = false →
      (sumSharesAux p acc l g).2 = g ∧
      Int.ModEq (p : Int) (sumSharesAux p acc l g).1.value
        (acc.value + (l.map Share.value).sum) := by
  intro l
  induction l with
  | nil =>
    intro acc g _
    refine ⟨rfl, ?_⟩
    simp [sumSharesAux]
  | cons s rest ih =>
    intro acc g hfin
    rcases h1 : Share.addShare p acc s g with ⟨a, g1⟩
    simp only [sumSharesAux, h1] at hfin ⊢
    have hg1 : g1.glitched = false := by
      by_contra hc
      rw [sumSharesAux_mono rest a g1 (by simpa using hc)] at hfin
      exact absurd hfin (by decide)
    obtain ⟨hst, hcong⟩ := ih a g1 hfin
    have hadd := addShare_eq (p := p) (a := acc) (b := s) (g := g)
      (by rw [h1]; exact hg1)
    rw [h1] at hadd
    obtain ⟨heq, _⟩ := hadd
    have hag : a = (⟨(acc.value + s.value) % (p : Int)⟩ : Share) ∧ g1 = g := by
      constructor
      · exact congrArg Prod.fst heq
      · exact congrArg Prod.snd heq
    refine ⟨by rw [hst, hag.2], ?_⟩
    calc (sumSharesAux p a rest g1).1.value
        ≡ a.value + (rest.map Share.value).sum [ZMOD (p : Int)] := hcong
      _ = (acc.value + s.value) % (p : Int) + (rest.map Share.value).sum := by
          rw [hag.1]
      _ ≡ acc.value + s.value + (rest.map Share.value).sum [ZMOD (p : Int)] :=
          (emod_modEq (acc.value + s.value) (p : Int)).add_right _
      _ = acc.value + ((s :: rest).map Share.value).sum := by
          simp [add_assoc]

theorem sumShares_spec {p : Nat} {l : List Share} {g : RState}
    (hfin : (sumShares p l g).2.glitched = false) :
    (sumShares p l g).2 = g ∧
    Int.ModEq (p : Int) (sumShares p l g).1.value (l.map Share.value).sum := by
  cases l with
  | nil =>
    refine ⟨rfl, ?_⟩
    simp [sumShares]
  | cons s rest =>
    rcases h1 : Share.addInt p s 0 g with ⟨a, g1⟩
    simp only [sumShares, h1] at hfin ⊢
    have hg1 : g1.glitched = false := by
      by_contra hc
      rw [sumSharesAux_mono rest a g1 (by simpa using hc)] at hfin
      exact absurd hfin (by decide)
    obtain ⟨hst, hcong⟩ := sumSharesAux_spec rest a g1 hfin
    have hadd := addInt_eq (p := p) (a := s) (k := 0) (g := g)
      (by rw [h1]; exact hg1)
    rw [h1] at hadd
    have hag : a = (⟨(s.value + 0) % (p : Int)⟩ : Share) ∧ g1 = g :=
      ⟨congrArg Prod.fst hadd.1, congrArg Prod.snd hadd.1⟩
    refine ⟨by rw [hst, hag.2], ?_⟩
    calc (sumSharesAux p a rest g1).1.value
        ≡ a.value + (rest.map Share.value).sum [ZMOD (p : Int)] := hcong
      _ = (s.value + 0) % (p : Int) + (rest.map Share.value).sum := by rw [hag.1]
      _ ≡ s.value + 0 + (rest.map Share.value).sum [ZMOD (p : Int)] :=
          (emod_modEq (s.value + 0) (p : Int)).add_right _
      _ = ((s :: rest).map Share.value).sum := by simp

/-- The glitch flag is monotone under `computeC`. -/
theorem computeC_mono {p : Nat} {sa sb : List Share} {i : Nat} {g : RState}
    (h : g.glitched = true) : (computeC p sa sb i g).2.glitched = true := by
  rcases h1 : Share.mulShare p (sa.getD i ⟨0⟩) (sb.getD i ⟨0⟩) g with ⟨t1, g1⟩
  rcases h2 : sumShares p sb g1 with ⟨bsum, g2⟩
  rcases h3 : Share.subShare p bsum (sb.getD i ⟨0⟩) g2 with ⟨diff, g3⟩
  rcases h4 : Share.mulShare p (sa.getD i ⟨0⟩) diff g3 with ⟨t2, g4⟩
  have hg1 : g1.glitched = true := by
    have := shareInit_mono (p := p)
      (v := some ((sa.getD i ⟨0⟩).value * (sb.getD i ⟨0⟩).value)) (g := g) h
    rw [show shareInit p (some ((sa.getD i ⟨0⟩).value * (sb.getD i ⟨0⟩).value)) g
          = (t1, g1) from h1] at this
    exact this
  have hg2 : g2.glitched = true := by
    have := sumShares_mono (p := p) (l := sb) (g := g1) hg1
    rw [h2] at this
    exact this
  have hg3 : g3.glitched = true := by
    have := shareInit_mono (p := p)
      (v := some (bsum.value - (sb.getD i ⟨0⟩).value)) (g := g2) hg2
    rw [show shareInit p (some (bsum.value - (sb.getD i ⟨0⟩).value)) g2
          = (diff, g3) from h3] at this
    exact this
  have hg4 : g4.glitched = true := by
    have := shareInit_mono (p := p)
      (v := some ((sa.getD i ⟨0⟩).value * diff.value)) (g := g3) hg3
    rw [show shareInit p (some ((sa.getD i ⟨0⟩).value * diff.value)) g3
          = (t2, g4) from h4] at this
    exact this
  simp only [computeC, h1, h2, h3, h4]
  exact shareInit_mono (p := p) (v := some (t1.value + t2.value)) (g := g4) hg4

/-- A glitch-free `computeC` leaves the random state untouched and produces a
value congruent to `a_i · Σ b` (the `c_i = a_i·b_i + a_i·(B - b_i)` formula
of ttp.py collapses to `a_i · B`). -/
theorem computeC_spec {p : Nat} {sa sb : List Share} {i : Nat} {g : RState}
    (hfin : (computeC p sa sb i g).2.glitched = false) :
    (computeC p sa sb i g).2 = g ∧
    Int.ModEq (p : Int) (computeC p sa sb i g).1.value
      ((sa.getD i ⟨0⟩).value * (sb.map Share.value).sum) := by
  rcases h1 : Share.mulShare p (sa.getD i ⟨0⟩) (sb.getD i ⟨0⟩) g with ⟨t1, g1⟩
  rcases h2 : sumShares p sb g1 with ⟨bsum, g2⟩
  rcases h3 : Share.subShare p bsum (sb.getD i ⟨0⟩) g2 with ⟨diff, g3⟩
  rcases h4 : Share.mulShare p (sa.getD i ⟨0⟩) diff g3 with ⟨t2, g4⟩
  simp only [computeC, h1, h2, h3, h4] at hfin ⊢
  -- peel the final addShare
  have hadd := addShare_eq (p := p) (a := t1) (b := t2) (g := g4) hfin
  have hg4 : g4.glitched = false := by
    rw [hadd.1] at hfin
    exact hfin
  -- peel t2
  have hm4 := mulShare_eq (p := p) (a := sa.getD i ⟨0⟩) (b := diff) (g := g3)
    (by rw [h4]; exact hg4)
  rw [h4] at hm4
  have ht2 : t2 = (⟨((sa.getD i ⟨0⟩).value * diff.value) % (p : Int)⟩ : Share) :=
    congrArg Prod.fst hm4.1
  have hg43 : g4 = g3 := congrArg Prod.snd hm4.1
  have hg3 : g3.glitched = false := by rw [← hg43]; exact hg4
  -- peel diff
  have hm3 := subShare_eq (p := p) (a := bsum) (b := sb.getD i ⟨0⟩) (g := g2)
    (by rw [h3]; exact hg3)
  rw [h3] at hm3
  have hdiff : diff = (⟨(bsum.value - (sb.getD i ⟨0⟩).value) % (p : Int)⟩ : Share) :=
    congrArg Prod.fst hm3.1
  have hg32 : g3 = g2 := congrArg Prod.snd hm3.1
  have hg2 : g2.glitched = false := by rw [← hg32]; exact hg3
  -- peel the sum of share_b
  have hm2 := sumShares_spec (p := p) (l := sb) (g := g1) (by rw [h2]; exact hg2)
  rw [h2] at hm2
  have hg21 : g2 = g1 := hm2.1
  have hg1 : g1.glitched = false := by rw [← hg21]; exact hg2
  -- peel t1
  have hm1 := mulShare_eq (p := p) (a := sa.getD i ⟨0⟩) (b := sb.getD i ⟨0⟩)
    (g := g) (by rw [h1]; exact hg1)
  rw [h1] at hm1
  have ht1 : t1 = (⟨((sa.getD i ⟨0⟩).value * (sb.getD i ⟨0⟩).value) % (p : Int)⟩ : Share) :=
    congrArg Prod.fst hm1.1
  have hg10 : g1 = g := congrArg Prod.snd hm1.1
  constructor
  · rw [congrArg Prod.snd hadd.1, hg43, hg32, hg21, hg10]
  · rw [congrArg Prod.fst hadd.1]
    have hB : Int.ModEq (p : Int) bsum.value (sb.map Share.value).sum := hm2.2
    have hdiffc : Int.ModEq (p : Int) diff.value
        ((sb.map Share.value).sum - (sb.getD i ⟨0⟩).value) := by
      rw [hdiff]
      exact (emod_modEq _ _).trans (hB.sub Int.ModEq.rfl)
    have ht2c : Int.ModEq (p : Int) t2.value
        ((sa.getD i ⟨0⟩).value *
          ((sb.map Share.value).sum - (sb.getD i ⟨0⟩).value)) := by
      rw [ht2]
      exact (emod_modEq _ _).trans (Int.ModEq.mul Int.ModEq.rfl hdiffc)
    have ht1c : Int.ModEq (p : Int) t1.value
        ((sa.getD i ⟨0⟩).value * (sb.getD i ⟨0⟩).value) := by
      rw [ht1]
      exact emod_modEq _ _
    have : Int.ModEq (p : Int) ((t1.value + t2.value) % (p : Int))
        ((sa.getD i ⟨0⟩).value * (sb.getD i ⟨0⟩).value +
          (sa.getD i ⟨0⟩).value *
            ((sb.map Share.value).sum - (sb.getD i ⟨0⟩).value)) :=
      (emod_modEq _ _).trans (ht1c.add ht2c)
    refine this.trans ?_
    have hring : (sa.getD i ⟨0⟩).value * (sb.getD i ⟨0⟩).value +
        (sa.getD i ⟨0⟩).value *
          ((sb.map Share.value).sum - (sb.getD i ⟨0⟩).value)
        = (sa.getD i ⟨0⟩).value * (sb.map Share.value).sum := by ring
    rw [hring]

/-- The glitch flag is monotone under `computeCs`. -/
theorem computeCs_mono {p : Nat} {sa sb : List Share} :
    ∀ (is : List Nat) (g : RState), g.glitched = true →
      (computeCs p sa sb is g).2.glitched = true := by
  intro is
  induction is with
  | nil => intro g h; exact h
  | cons i rest ih =>
    intro g h
    rcases h1 : computeC p sa sb i g with ⟨c, g1⟩
    have hg1 : g1.glitched = true := by
      have := @computeC_mono p sa sb i g h
      rw [h1] at this
      exact this
    simp only [computeCs, h1]
    exact ih g1 hg1

/-- A glitch-free `computeCs` leaves the random state untouched and its
values sum to `Σ_i a_i · Σ b` modulo `p`. -/
theorem computeCs_spec {p : Nat} {sa sb : List Share} :
    ∀ (is : List Nat) (g : RState),
      (computeCs p sa sb is g).2.glitched = false →
      (computeCs p sa sb is g).2 = g ∧
      (computeCs p sa sb is g).1.length = is.length ∧
      Int.ModEq (p : Int) (((computeCs p sa sb is g).1.map Share.value).sum)
        ((is.map (fun i => (sa.getD i ⟨0⟩).value * (sb.map Share.value).sum)).sum) := by
  intro is
  induction is with
  | nil =>
    intro g _
    refine ⟨rfl, rfl, ?_⟩
    simp [computeCs]
  | cons i rest ih =>
    intro g hfin
    rcases h1 : computeC p sa sb i g with ⟨c, g1⟩
    simp only [computeCs, h1] at hfin ⊢
    have hg1 : g1.glitched = false := by
      by_contra hc
      rw [computeCs_mono rest g1 (by simpa using hc)] at hfin
      exact absurd hfin (by decide)
    obtain ⟨hst, hlen, hcong⟩ := ih g1 hfin
    have hcs := @computeC_spec p sa sb i g (by rw [h1]; exact hg1)
    rw [h1] at hcs
    have hg10 : g1 = g := hcs.1
    have hcval : Int.ModEq (p : Int) c.value
        ((sa.getD i ⟨0⟩).value * (sb.map Share.value).sum) := hcs.2
    refine ⟨by rw [hst, hg10], by simpa using hlen, ?_⟩
    simp only [List.map_cons, List.sum_cons]
    exact hcval.add hcong

/-- `mkRandomShares` produces exactly `n` shares. -/
theorem mkRandomShares_length {p : Nat} :
    ∀ (n : Nat) (g : RState), (mkRandomShares p n g).1.length = n := by
  intro n
  induction n with
  | zero => intro g; rfl
  | succ m ih =>
    intro g
    rcases h1 : shareInit p none g with ⟨s, g1⟩
    simp only [mkRandomShares, h1]
    simp [ih g1]

/-- `share_secret` produces exactly `num_shares` shares when
`num_shares ≥ 1`. -/
theorem share_secret_length {p : Nat} {v : Int} {n : Nat} {g : RState}
    (hn : 1 ≤ n) : (share_secret p v n g).1.length = n := by
  rcases h1 : mkRandomShares p (n - 1) g with ⟨rs, g1⟩
  have hr : rs.length = n - 1 := by
    have := mkRandomShares_length (p := p) (n - 1) g
    rw [h1] at this
    exact this
  rcases h2 : shareInit p
      (some (v - (rs.map Share.value).sum)) g1 with ⟨fs, g2⟩
  simp only [share_secret, h1, h2]
  simp [hr]
  omega

/-- Reading a list through `getD` at the indices `range l.length` gives the
list back. -/
theorem range_getD_map (l : List Share) :
    (List.range l.length).map (fun i => l.getD i ⟨0⟩) = l := by
  induction l with
  | nil => rfl
  | cons x xs ih =>
    rw [List.length_cons, List.range_succ_eq_map]
    simp only [List.map_cons, List.getD_cons_zero, List.map_map]
    -- the composed function is definitionally `fun i => xs.getD i default`
    show x :: (List.range xs.length).map (fun i => xs.getD i ⟨0⟩) = x :: xs
    rw [ih]

/-- The glitch flag is monotone under `deserializeList`. -/
theorem deserializeList_mono {p : Nat} :
    ∀ (msgs : List Int) (g : RState), g.glitched = true →
      (deserializeList p msgs g).2.glitched = true := by
  intro msgs
  induction msgs with
  | nil => intro g h; exact h
  | cons v rest ih =>
    intro g h
    rcases h1 : Share.deserialize p v g with ⟨s, g1⟩
    have hg1 : g1.glitched = true := by
      have := shareInit_mono (p := p) (v := some v) (g := g) h
      rw [show shareInit p (some v) g = (s, g1) from h1] at this
      exact this
    simp only [deserializeList, h1]
    exact ih g1 hg1

/-- A glitch-free `deserializeList` leaves the random state untouched and
returns the serialized values reduced mod `p`. -/
theorem deserializeList_spec {p : Nat} :
    ∀ (msgs : List Int) (g : RState),
      (deserializeList p msgs g).2.glitched = false →
      deserializeList p msgs g
        = (msgs.map (fun v => (⟨v % (p : Int)⟩ : Share)), g) := by
  intro msgs
  induction msgs with
  | nil => intro g _; rfl
  | cons v rest ih =>
    intro g hfin
    rcases h1 : Share.deserialize p v g with ⟨s, g1⟩
    simp only [deserializeList, h1] at hfin ⊢
    have hg1 : g1.glitched = false := by
      by_contra hc
      rw [deserializeList_mono rest g1 (by simpa using hc)] at hfin
      exact absurd hfin (by decide)
    have hdes := shareInit_some_eq (p := p) (v := v) (g := g)
      (by rw [show shareInit p (some v) g = (s, g1) from h1]; exact hg1)
    have hpair : ((s, g1) : Share × RState) = (⟨v % (p : Int)⟩, g) := by
      rw [← h1]
      exact hdes.1
    have hs : s = (⟨v % (p : Int)⟩ : Share) := congrArg Prod.fst hpair
    have hg10 : g1 = g := congrArg Prod.snd hpair
    rw [ih g1 hfin, hs, hg10]
    simp

/-- Summing emod-reduced values is congruent to summing the values. -/
theorem sum_map_emod_modEq (msgs : List Int) (n : Int) :
    Int.ModEq n ((msgs.map (fun v => v % n)).sum) msgs.sum := by
  induction msgs with
  | nil => rfl
  | cons v rest ih =>
    simp only [List.map_cons, List.sum_cons]
    exact (emod_modEq v n).add ih

/-- A glitch-free `retrieve_and_reconstruct` leaves the random state
untouched and returns a value congruent to the sum of the broadcast
values. -/
theorem retrieve_and_reconstruct_spec {p : Nat} {msgs : List Int} {g : RState}
    (hfin : (retrieve_and_reconstruct p msgs g).2.glitched = false) :
    (retrieve_and_reconstruct p msgs g).2 = g ∧
    Int.ModEq (p : Int) (retrieve_and_reconstruct p msgs g).1 msgs.sum := by
  rcases h1 : deserializeList p msgs g with ⟨shares, g1⟩
  simp only [retrieve_and_reconstruct, h1] at hfin ⊢
  have hdes := deserializeList_spec (p := p) msgs g (by rw [h1]; exact hfin)
  rw [h1] at hdes
  have hsh : shares = msgs.map (fun v => (⟨v % (p : Int)⟩ : Share)) :=
    congrArg Prod.fst hdes
  have hg10 : g1 = g := congrArg Prod.snd hdes
  refine ⟨hg10, ?_⟩
  rw [hsh]
  unfold reconstruct_secret
  rw [List.map_map]
  exact (emod_modEq _ _).trans (sum_map_emod_modEq msgs (p : Int))

/-- A glitch-free share-by-share `process_mul_combine` leaves the random
state untouched and returns a share congruent to
`c_share + x_share·E + y_share·D − [isMin]·D·E`, where `D` and `E` are the
sums of the broadcast `x - a` and `y - b` values. -/
theorem process_mul_combine_spec {p : Nat} {ctx : PartyCtx} {eid : Nat}
    {sx sy : Share} {g : RState}
    (hfin : (process_mul_combine p ctx eid (.share sx) (.share sy) g).2.glitched
      = false) :
    (process_mul_combine p ctx eid (.share sx) (.share sy) g).2 = g ∧
    (process_mul_combine p ctx eid (.share sx) (.share sy) g).1.isShare = true ∧
    Int.ModEq (p : Int)
      (svalValue (process_mul_combine p ctx eid (.share sx) (.share sy) g).1)
      ((ctx.beaver eid).2.2.value + sx.value * (ctx.eMsgs eid).sum
        + sy.value * (ctx.dMsgs eid).sum
        - (if ctx.isMin then (ctx.dMsgs eid).sum * (ctx.eMsgs eid).sum else 0)) := by
  rcases hb : ctx.beaver eid with ⟨sa, sb, sc⟩
  rcases s1 : Share.subShare p sx sa g with ⟨b1, g1⟩
  rcases s2 : Share.subShare p sy sb g1 with ⟨b2, g2⟩
  rcases s3 : retrieve_and_reconstruct p (ctx.dMsgs eid) g2 with ⟨D0, g3⟩
  rcases s4 : retrieve_and_reconstruct p (ctx.eMsgs eid) g3 with ⟨E0, g4⟩
  rcases s5 : Share.mulInt p sx E0 g4 with ⟨t1, g5⟩
  rcases s6 : Share.addShare p sc t1 g5 with ⟨u1, g6⟩
  rcases s7 : Share.mulInt p sy D0 g6 with ⟨t2, g7⟩
  rcases s8 : Share.addShare p u1 t2 g7 with ⟨u2, g8⟩
  simp only [process_mul_combine, hb, s1, s2, s3, s4, s5, s6, s7, s8]
    at hfin ⊢
  -- peel the final subInt
  have h9 := subInt_eq (p := p) (a := u2)
    (k := D0 * E0 * (if ctx.isMin then 1 else 0)) (g := g8) hfin
  have hg8 : g8.glitched = false := by
    rw [h9.1] at hfin
    exact hfin
  -- peel u2
  have h8 := addShare_eq (p := p) (a := u1) (b := t2) (g := g7)
    (by rw [s8]; exact hg8)
  rw [s8] at h8
  have hu2 : u2 = (⟨(u1.value + t2.value) % (p : Int)⟩ : Share) :=
    congrArg Prod.fst h8.1
  have hg87 : g8 = g7 := congrArg Prod.snd h8.1
  have hg7 : g7.glitched = false := by rw [← hg87]; exact hg8
  -- peel t2
  have h7 := mulInt_eq (p := p) (a := sy) (k := D0) (g := g6)
    (by rw [s7]; exact hg7)
  rw [s7] at h7
  have ht2 : t2 = (⟨(sy.value * D0) % (p : Int)⟩ : Share) :=
    congrArg Prod.fst h7.1
  have hg76 : g7 = g6 := congrArg Prod.snd h7.1
  have hg6 : g6.glitched = false := by rw [← hg76]; exact hg7
  -- peel u1
  have h6 := addShare_eq (p := p) (a := sc) (b := t1) (g := g5)
    (by rw [s6]; exact hg6)
  rw [s6] at h6
  have hu1 : u1 = (⟨(sc.value + t1.value) % (p : Int)⟩ : Share) :=
    congrArg Prod.fst h6.1
  have hg65 : g6 = g5 := congrArg Prod.snd h6.1
  have hg5 : g5.glitched = false := by rw [← hg65]; exact hg6
  -- peel t1
  have h5 := mulInt_eq (p := p) (a := sx) (k := E0) (g := g4)
    (by rw [s5]; exact hg5)
  rw [s5] at h5
  have ht1 : t1 = (⟨(sx.value * E0) % (p : Int)⟩ : Share) :=
    congrArg Prod.fst h5.1
  have hg54 : g5 = g4 := congrArg Prod.snd h5.1
  have hg4 : g4.glitched = false := by rw [← hg54]; exact hg5
  -- peel E0
  have h4 := @retrieve_and_reconstruct_spec p (ctx.eMsgs eid) g3
    (by rw [s4]; exact hg4)
  rw [s4] at h4
  have hE0 : Int.ModEq (p : Int) E0 (ctx.eMsgs eid).sum := h4.2
  have hg43 : g4 = g3 := h4.1
  have hg3 : g3.glitched = false := by rw [← hg43]; exact hg4
  -- peel D0
  have h3 := @retrieve_and_reconstruct_spec p (ctx.dMsgs eid) g2
    (by rw [s3]; exact hg3)
  rw [s3] at h3
  have hD0 : Int.ModEq (p : Int) D0 (ctx.dMsgs eid).sum := h3.2
  have hg32 : g3 = g2 := h3.1
  have hg2 : g2.glitched = false := by rw [← hg32]; exact hg3
  -- peel the two broadcasts
  have h2 := subShare_eq (p := p) (a := sy) (b := sb) (g := g1)
    (by rw [s2]; exact hg2)
  rw [s2] at h2
  have hg21 : g2 = g1 := congrArg Prod.snd h2.1
  have hg1 : g1.glitched = false := by rw [← hg21]; exact hg2
  have h1 := subShare_eq (p := p) (a := sx) (b := sa) (g := g)
    (by rw [s1]; exact hg1)
  rw [s1] at h1
  have hg10 : g1 = g := congrArg Prod.snd h1.1
  refine ⟨?_, rfl, ?_⟩
  · rw [congrArg Prod.snd h9.1, hg87, hg76, hg65, hg54, hg43, hg32, hg21, hg10]
  · rw [congrArg Prod.fst h9.1]
    show Int.ModEq (p : Int)
      ((u2.value - D0 * E0 * (if ctx.isMin then 1 else 0)) % (p : Int)) _
    have hu2c : Int.ModEq (p : Int) u2.value
        (sc.value + sx.value * (ctx.eMsgs eid).sum
          + sy.value * (ctx.dMsgs eid).sum) := by
      rw [hu2]
      refine (emod_modEq _ _).trans ?_
      have hu1c : Int.ModEq (p : Int) u1.value
          (sc.value + sx.value * (ctx.eMsgs eid).sum) := by
        rw [hu1]
        refine (emod_modEq _ _).trans (Int.ModEq.add Int.ModEq.rfl ?_)
        rw [ht1]
        exact (emod_modEq _ _).trans (Int.ModEq.mul Int.ModEq.rfl hE0)
      have ht2c : Int.ModEq (p : Int) t2.value
          (sy.value * (ctx.dMsgs eid).sum) := by
        rw [ht2]
        exact (emod_modEq _ _).trans (Int.ModEq.mul Int.ModEq.rfl hD0)
      exact hu1c.add ht2c
    have hitec : Int.ModEq (p : Int)
        (D0 * E0 * (if ctx.isMin then 1 else 0))
        (if ctx.isMin then (ctx.dMsgs eid).sum * (ctx.eMsgs eid).sum else 0) := by
      by_cases hm : ctx.isMin = true
      · simp only [hm, if_true, mul_one]
        exact hD0.mul hE0
      · rw [Bool.not_eq_true] at hm
        simp only [hm]
        simp
    exact (emod_modEq _ _).trans (hu2c.sub hitec)

/-- Evaluating `Mul(Secret u, Secret w)` when both secrets are already cached
in `share_dict` performs no sharing: it reads the two cached shares and runs
the Beaver combination on them. -/
theorem process_mul_cached {p : Nat} {ctx : PartyCtx} {eid u w : Nat}
    {sx sy : Share} {st : PState} (huw : u ≠ w)
    (hdict : st.shareDict = [(u, sx), (w, sy)]) :
    process_expression p ctx (.mul eid (.secret u) (.secret w)) st
      = ((process_mul_combine p ctx eid (.share sx) (.share sy) st.rng).1,
          ⟨st.shareDict,
            (process_mul_combine p ctx eid (.share sx) (.share sy) st.rng).2⟩) := by
  have hne : (u == w) = false := beq_eq_false_iff_ne.mpr huw
  have h1 : lookupN st.shareDict u = some sx := by
    simp [lookupN, hdict]
  have h2 : lookupN st.shareDict w = some sy := by
    simp [lookupN, hdict, List.find?, hne]
  simp only [process_expression, process_secret, h1, h2]

/-- Congruent summands over `range N` give congruent sums. -/
theorem sum_range_congr (n : Int) (N : Nat) (f h : Nat → Int)
    (H : ∀ i, i < N → Int.ModEq n (f i) (h i)) :
    Int.ModEq n ((List.range N).map f).sum ((List.range N).map h).sum := by
  induction N with
  | zero => rfl
  | succ m ih =>
    rw [List.range_succ]
    simp only [List.map_append, List.sum_append, List.map_cons,
      List.sum_cons, List.map_nil, List.sum_nil, add_zero]
    exact (ih (fun i hi => H i (by omega))).add (H m (by omega))

theorem list_sum_map_add {α : Type} (l : List α) (f h : α → Int) :
    (l.map (fun a => f a + h a)).sum = (l.map f).sum + (l.map h).sum := by
  induction l with
  | nil => simp
  | cons a rest ih =>
    simp only [List.map_cons, List.sum_cons, ih]
    ring

theorem list_sum_map_sub {α : Type} (l : List α) (f h : α → Int) :
    (l.map (fun a => f a - h a)).sum = (l.map f).sum - (l.map h).sum := by
  induction l with
  | nil => simp
  | cons a rest ih =>
    simp only [List.map_cons, List.sum_cons, ih]
    ring

/-- Over `range N` with `N ≥ 1`, the indicator of the designated party
(index `0`) sums to exactly one contribution. -/
theorem sum_range_indicator (c : Int) :
    ∀ N : Nat, 1 ≤ N →
      ((List.range N).map (fun i => if i = 0 then c else 0)).sum = c := by
  intro N
  induction N with
  | zero => intro h; omega
  | succ m ih =>
    intro _
    rcases Nat.eq_zero_or_pos m with hm | hm
    · subst hm
      show (List.map (fun i => if i = 0 then c else 0) [0]).sum = c
      simp
    · rw [List.range_succ]
      simp only [List.map_append, List.sum_append, List.map_cons,
        List.sum_cons, List.map_nil, List.sum_nil, add_zero]
      rw [ih hm, if_neg (by omega)]
      ring

end Smc

/-- C3 counterexample: two parties evaluate `Mul(Secret 0, Secret 1)` on
sharings of `x = 3` (shares `3, 0`) and `y = 5` (shares `5, 0`) with the
Beaver triplet `a = 3`, `b = 5`, `c = 15 ≡ 4`, and broadcasts summing to
`D = x - a ≡ 0` and `E = y - b ≡ 0` (each broadcast value `11 ≡ 0`, nonzero
as an integer).  All the claim's hypotheses hold, yet because `E = 0` the
intermediate products `x_share·E` and `y_share·D` are the falsy integer `0`
and `Share.__init__` replaces them by random values (stream constantly `1`):
the parties return `6` and `2`, and `6 + 2 = 8 ≢ 3·5 (mod 11)` — the
returned shares do not form an additive sharing of `x·y`. -/
theorem C3_counterexample :
    Int.ModEq 11 (([11, 11] : List Int).sum) (((3 : Int) + 0) - ((3 : Int) + 0)) ∧
    Int.ModEq 11 (([11, 11] : List Int).sum) (((5 : Int) + 0) - ((5 : Int) + 0)) ∧
    Int.ModEq 11 ((4 : Int) + 0) (((3 : Int) + 0) * ((5 : Int) + 0)) ∧
    ¬ Int.ModEq 11
      (Smc.svalValue
          (Smc.process_expression 11
            ⟨true, 0, 2, [], fun _ => (⟨3⟩, ⟨5⟩, ⟨4⟩), fun _ => [11, 11],
              fun _ => [11, 11], fun _ => 0, []⟩
            (Smc.Expr.mul 7 (Smc.Expr.secret 0) (Smc.Expr.secret 1))
            ⟨[(0, ⟨3⟩), (1, ⟨5⟩)], ⟨fun _ => 1, 0, false⟩⟩).1
        + Smc.svalValue
          (Smc.process_expression 11
            ⟨false, 1, 2, [], fun _ => (⟨0⟩, ⟨0⟩, ⟨0⟩), fun _ => [11, 11],
              fun _ => [11, 11], fun _ => 0, []⟩
            (Smc.Expr.mul 7 (Smc.Expr.secret 0) (Smc.Expr.secret 1))
            ⟨[(0, ⟨0⟩), (1, ⟨0⟩)], ⟨fun _ => 1, 0, false⟩⟩).1)
      (((3 : Int) + 0) * ((5 : Int) + 0)) := by
  refine ⟨by decide, by decide, by decide, by decide⟩

/-- C3 (amended): `N` parties evaluate `Mul(Secret u, Secret w)` with both
operand shares cached.  Given per-party Beaver triplet shares, identical
broadcast lists whose sums are congruent to `x - a` and `y - b`, a triplet
with `c ≡ a·b`, the designated party exactly at position `0`, and runs in
which the falsy-zero fallback of `Share.__init__` never fires, every party
returns a share congruent to `c_i + x_i·E + y_i·D − [i = 0]·D·E`, and the
returned shares form an additive sharing of `x·y mod p`. -/
theorem C3_beaver_mul (p N u w eid : Nat) (huw : u ≠ w) (hN : 1 ≤ N)
    (xs ys as bs cs : List Smc.Share) (dM eM : List Int)
    (ctxf : Nat → Smc.PartyCtx) (stf : Nat → Smc.PState)
    (hxs : xs.length = N) (hys : ys.length = N) (hcs : cs.length = N)
    (hbeaver : ∀ i, i < N → (ctxf i).beaver eid
        = (as.getD i ⟨0⟩, bs.getD i ⟨0⟩, cs.getD i ⟨0⟩))
    (hdm : ∀ i, i < N → (ctxf i).dMsgs eid = dM)
    (hem : ∀ i, i < N → (ctxf i).eMsgs eid = eM)
    (hmin : ∀ i, i < N → ((ctxf i).isMin = true ↔ i = 0))
    (hdict : ∀ i, i < N → (stf i).shareDict
        = [(u, xs.getD i ⟨0⟩), (w, ys.getD i ⟨0⟩)])
    (hD : Int.ModEq (p : Int) dM.sum
        ((xs.map Smc.Share.value).sum - (as.map Smc.Share.value).sum))
    (hE : Int.ModEq (p : Int) eM.sum
        ((ys.map Smc.Share.value).sum - (bs.map Smc.Share.value).sum))
    (hc : Int.ModEq (p : Int) (cs.map Smc.Share.value).sum
        ((as.map Smc.Share.value).sum * (bs.map Smc.Share.value).sum))
    (hngl : ∀ i, i < N →
      (Smc.process_expression p (ctxf i)
        (Smc.Expr.mul eid (Smc.Expr.secret u) (Smc.Expr.secret w))
        (stf i)).2.rng.glitched = false) :
    (∀ i, i < N →
      (Smc.process_expression p (ctxf i)
        (Smc.Expr.mul eid (Smc.Expr.secret u) (Smc.Expr.secret w))
        (stf i)).1.isShare = true ∧
      Int.ModEq (p : Int)
        (Smc.svalValue (Smc.process_expression p (ctxf i)
          (Smc.Expr.mul eid (Smc.Expr.secret u) (Smc.Expr.secret w))
          (stf i)).1)
        ((cs.getD i ⟨0⟩).value + (xs.getD i ⟨0⟩).value * eM.sum
          + (ys.getD i ⟨0⟩).value * dM.sum
          - (if i = 0 then dM.sum * eM.sum else 0))) ∧
    Int.ModEq (p : Int)
      (((List.range N).map (fun i =>
          Smc.svalValue (Smc.process_expression p (ctxf i)
            (Smc.Expr.mul eid (Smc.Expr.secret u) (Smc.Expr.secret w))
            (stf i)).1)).sum)
      ((xs.map Smc.Share.value).sum * (ys.map Smc.Share.value).sum) := by
  have hparty : ∀ i, i < N →
      (Smc.process_expression p (ctxf i)
        (Smc.Expr.mul eid (Smc.Expr.secret u) (Smc.Expr.secret w))
        (stf i)).1.isShare = true ∧
      Int.ModEq (p : Int)
        (Smc.svalValue (Smc.process_expression p (ctxf i)
          (Smc.Expr.mul eid (Smc.Expr.secret u) (Smc.Expr.secret w))
          (stf i)).1)
        ((cs.getD i ⟨0⟩).value + (xs.getD i ⟨0⟩).value * eM.sum
          + (ys.getD i ⟨0⟩).value * dM.sum
          - (if i = 0 then dM.sum * eM.sum else 0)) := by
    intro i hi
    have hpc := @Smc.process_mul_cached p (ctxf i) eid u w
      (xs.getD i ⟨0⟩) (ys.getD i ⟨0⟩) (stf i) huw (hdict i hi)
    have hfin : (Smc.process_mul_combine p (ctxf i) eid
        (.share (xs.getD i ⟨0⟩)) (.share (ys.getD i ⟨0⟩))
        (stf i).rng).2.glitched = false := by
      have hg := hngl i hi
      rw [hpc] at hg
      exact hg
    obtain ⟨-, hshare, hcong⟩ := Smc.process_mul_combine_spec hfin
    rw [hbeaver i hi, hdm i hi, hem i hi] at hcong
    constructor
    · rw [hpc]
      exact hshare
    · rw [hpc]
      by_cases h0 : i = 0
      · have hm : (ctxf i).isMin = true := (hmin i hi).mpr h0
        rw [hm] at hcong
        rw [if_pos h0]
        simpa using hcong
      · have hm : (ctxf i).isMin = false := by
          rcases hb : (ctxf i).isMin with _ | _
          · rfl
          · exact absurd ((hmin i hi).mp hb) h0
        rw [hm] at hcong
        rw [if_neg h0]
        simpa using hcong
  refine ⟨hparty, ?_⟩
  have hcongsum := Smc.sum_range_congr (p : Int) N
    (fun i => Smc.svalValue (Smc.process_expression p (ctxf i)
      (Smc.Expr.mul eid (Smc.Expr.secret u) (Smc.Expr.secret w)) (stf i)).1)
    (fun i => (cs.getD i ⟨0⟩).value + (xs.getD i ⟨0⟩).value * eM.sum
      + (ys.getD i ⟨0⟩).value * dM.sum
      - (if i = 0 then dM.sum * eM.sum else 0))
    (fun i hi => (hparty i hi).2)
  refine hcongsum.trans ?_
  -- evaluate the ideal sum
  have hcs' : (List.range N).map (fun i => (cs.getD i ⟨0⟩).value)
      = cs.map Smc.Share.value := by
    rw [show N = cs.length from hcs.symm]
    have := congrArg (List.map Smc.Share.value) (Smc.range_getD_map cs)
    rw [List.map_map] at this
    exact this
  have hxs' : (List.range N).map (fun i => (xs.getD i ⟨0⟩).value)
      = xs.map Smc.Share.value := by
    rw [show N = xs.length from hxs.symm]
    have := congrArg (List.map Smc.Share.value) (Smc.range_getD_map xs)
    rw [List.map_map] at this
    exact this
  have hys' : (List.range N).map (fun i => (ys.getD i ⟨0⟩).value)
      = ys.map Smc.Share.value := by
    rw [show N = ys.length from hys.symm]
    have := congrArg (List.map Smc.Share.value) (Smc.range_getD_map ys)
    rw [List.map_map] at this
    exact this
  have hsum_eq : ((List.range N).map
      (fun i => (cs.getD i ⟨0⟩).value + (xs.getD i ⟨0⟩).value * eM.sum
        + (ys.getD i ⟨0⟩).value * dM.sum
        - (if i = 0 then dM.sum * eM.sum else 0))).sum
      = (cs.map Smc.Share.value).sum
        + (xs.map Smc.Share.value).sum * eM.sum
        + (ys.map Smc.Share.value).sum * dM.sum
        - dM.sum * eM.sum := by
    calc ((List.range N).map
        (fun i => (cs.getD i ⟨0⟩).value + (xs.getD i ⟨0⟩).value * eM.sum
          + (ys.getD i ⟨0⟩).value * dM.sum
          - (if i = 0 then dM.sum * eM.sum else 0))).sum
        = ((List.range N).map
            (fun i => (cs.getD i ⟨0⟩).value + (xs.getD i ⟨0⟩).value * eM.sum
              + (ys.getD i ⟨0⟩).value * dM.sum)).sum
          - ((List.range N).map
              (fun i => if i = 0 then dM.sum * eM.sum else 0)).sum :=
          Smc.list_sum_map_sub (List.range N) _ _
      _ = (((List.range N).map
            (fun i => (cs.getD i ⟨0⟩).value + (xs.getD i ⟨0⟩).value * eM.sum)).sum
          + ((List.range N).map
              (fun i => (ys.getD i ⟨0⟩).value * dM.sum)).sum)
          - ((List.range N).map
              (fun i => if i = 0 then dM.sum * eM.sum else 0)).sum := by
          rw [Smc.list_sum_map_add (List.range N) _ _]
      _ = (((List.range N).map (fun i => (cs.getD i ⟨0⟩).value)).sum
          + ((List.range N).map (fun i => (xs.getD i ⟨0⟩).value * eM.sum)).sum
          + ((List.range N).map
              (fun i => (ys.getD i ⟨0⟩).value * dM.sum)).sum)
          - ((List.range N).map
              (fun i => if i = 0 then dM.sum * eM.sum else 0)).sum := by
          rw [Smc.list_sum_map_add (List.range N) _ _]
      _ = (cs.map Smc.Share.value).sum
          + (xs.map Smc.Share.value).sum * eM.sum
          + (ys.map Smc.Share.value).sum * dM.sum
          - dM.sum * eM.sum := by
          rw [List.sum_map_mul_right, List.sum_map_mul_right, hcs', hxs', hys',
            Smc.sum_range_indicator (dM.sum * eM.sum) N hN]
  rw [hsum_eq]
  have hfinal : Int.ModEq (p : Int)
      ((cs.map Smc.Share.value).sum
        + (xs.map Smc.Share.value).sum * eM.sum
        + (ys.map Smc.Share.value).sum * dM.sum
        - dM.sum * eM.sum)
      ((as.map Smc.Share.value).sum * (bs.map Smc.Share.value).sum
        + (xs.map Smc.Share.value).sum
            * ((ys.map Smc.Share.value).sum - (bs.map Smc.Share.value).sum)
        + (ys.map Smc.Share.value).sum
            * ((xs.map Smc.Share.value).sum - (as.map Smc.Share.value).sum)
        - ((xs.map Smc.Share.value).sum - (as.map Smc.Share.value).sum)
            * ((ys.map Smc.Share.value).sum - (bs.map Smc.Share.value).sum)) :=
    ((hc.add (Int.ModEq.mul Int.ModEq.rfl hE)).add
      (Int.ModEq.mul Int.ModEq.rfl hD)).sub (hD.mul hE)
  refine hfinal.trans ?_
  have : (as.map Smc.Share.value).sum * (bs.map Smc.Share.value).sum
      + (xs.map Smc.Share.value).sum
          * ((ys.map Smc.Share.value).sum - (bs.map Smc.Share.value).sum)
      + (ys.map Smc.Share.value).sum
          * ((xs.map Smc.Share.value).sum - (as.map Smc.Share.value).sum)
      - ((xs.map Smc.Share.value).sum - (as.map Smc.Share.value).sum)
          * ((ys.map Smc.Share.value).sum - (bs.map Smc.Share.value).sum)
      = (xs.map Smc.Share.value).sum * (ys.map Smc.Share.value).sum := by
    ring
  rw [this]

/-- C3 witness: two parties, `p = 11`, `x = 5` (shares `3, 2`), `y = 5`
(shares `4, 1`), triplet `a = 2`, `b = 4`, `c = 8` (shares `(1,1)`, `(2,2)`,
`(3,5)`), broadcasts `D = [2,1]` (sum `3 ≡ x - a`) and `E = [5,7]`
(sum `12 ≡ 1 ≡ y - b`); the glitch-free run returns shares `4` and `10`,
an additive sharing of `25 ≡ 3 (mod 11)`. -/
theorem C3_beaver_mul_witness :
    (∀ i, i < 2 →
      (Smc.process_expression 11
        ((fun i => if i = 0 then
            (⟨true, 0, 2, [], fun _ => (⟨1⟩, ⟨2⟩, ⟨3⟩), fun _ => [2, 1],
              fun _ => [5, 7], fun _ => 0, []⟩ : Smc.PartyCtx)
          else
            ⟨false, 1, 2, [], fun _ => (⟨1⟩, ⟨2⟩, ⟨5⟩), fun _ => [2, 1],
              fun _ => [5, 7], fun _ => 0, []⟩) i)
        (Smc.Expr.mul 7 (Smc.Expr.secret 0) (Smc.Expr.secret 1))
        ((fun i => if i = 0 then
            (⟨[(0, ⟨3⟩), (1, ⟨4⟩)], ⟨fun _ => 9, 0, false⟩⟩ : Smc.PState)
          else
            ⟨[(0, ⟨2⟩), (1, ⟨1⟩)], ⟨fun _ => 9, 0, false⟩⟩) i)).1.isShare
        = true ∧
      Int.ModEq (11 : Int)
        (Smc.svalValue (Smc.process_expression 11
          ((fun i => if i = 0 then
              (⟨true, 0, 2, [], fun _ => (⟨1⟩, ⟨2⟩, ⟨3⟩), fun _ => [2, 1],
                fun _ => [5, 7], fun _ => 0, []⟩ : Smc.PartyCtx)
            else
              ⟨false, 1, 2, [], fun _ => (⟨1⟩, ⟨2⟩, ⟨5⟩), fun _ => [2, 1],
                fun _ => [5, 7], fun _ => 0, []⟩) i)
          (Smc.Expr.mul 7 (Smc.Expr.secret 0) (Smc.Expr.secret 1))
          ((fun i => if i = 0 then
              (⟨[(0, ⟨3⟩), (1, ⟨4⟩)], ⟨fun _ => 9, 0, false⟩⟩ : Smc.PState)
            else
              ⟨[(0, ⟨2⟩), (1, ⟨1⟩)], ⟨fun _ => 9, 0, false⟩⟩) i)).1)
        ((([⟨3⟩, ⟨5⟩] : List Smc.Share).getD i ⟨0⟩).value
          + (([⟨3⟩, ⟨2⟩] : List Smc.Share).getD i ⟨0⟩).value
              * ([5, 7] : List Int).sum
          + (([⟨4⟩, ⟨1⟩] : List Smc.Share).getD i ⟨0⟩).value
              * ([2, 1] : List Int).sum
          - (if i = 0 then ([2, 1] : List Int).sum * ([5, 7] : List Int).sum
              else 0))) ∧
    Int.ModEq (11 : Int)
      (((List.range 2).map (fun i =>
          Smc.svalValue (Smc.process_expression 11
            ((fun i => if i = 0 then
                (⟨true, 0, 2, [], fun _ => (⟨1⟩, ⟨2⟩, ⟨3⟩), fun _ => [2, 1],
                  fun _ => [5, 7], fun _ => 0, []⟩ : Smc.PartyCtx)
              else
                ⟨false, 1, 2, [], fun _ => (⟨1⟩, ⟨2⟩, ⟨5⟩), fun _ => [2, 1],
                  fun _ => [5, 7], fun _ => 0, []⟩) i)
            (Smc.Expr.mul 7 (Smc.Expr.secret 0) (Smc.Expr.secret 1))
            ((fun i => if i = 0 then
                (⟨[(0, ⟨3⟩), (1, ⟨4⟩)], ⟨fun _ => 9, 0, false⟩⟩ : Smc.PState)
              else
                ⟨[(0, ⟨2⟩), (1, ⟨1⟩)], ⟨fun _ => 9, 0, false⟩⟩) i)).1)).sum)
      ((([⟨3⟩, ⟨2⟩] : List Smc.Share).map Smc.Share.value).sum
        * (([⟨4⟩, ⟨1⟩] : List Smc.Share).map Smc.Share.value).sum) :=
  C3_beaver_mul 11 2 0 1 7 (by decide) (by decide)
    [⟨3⟩, ⟨2⟩] [⟨4⟩, ⟨1⟩] [⟨1⟩, ⟨1⟩] [⟨2⟩, ⟨2⟩] [⟨3⟩, ⟨5⟩] [2, 1] [5, 7]
    (fun i => if i = 0 then
        ⟨true, 0, 2, [], fun _ => (⟨1⟩, ⟨2⟩, ⟨3⟩), fun _ => [2, 1],
          fun _ => [5, 7], fun _ => 0, []⟩
      else
        ⟨false, 1, 2, [], fun _ => (⟨1⟩, ⟨2⟩, ⟨5⟩), fun _ => [2, 1],
          fun _ => [5, 7], fun _ => 0, []⟩)
    (fun i => if i = 0 then ⟨[(0, ⟨3⟩), (1, ⟨4⟩)], ⟨fun _ => 9, 0, false⟩⟩
      else ⟨[(0, ⟨2⟩), (1, ⟨1⟩)], ⟨fun _ => 9, 0, false⟩⟩)
    (by decide) (by decide) (by decide) (by decide) (by decide) (by decide)
    (by decide) (by decide) (by decide) (by decide) (by decide) (by decide)

/-- C7 counterexample: one registered participant, `p = 11`, and the random
source producing `0, 7, 3, 5, …`.  The dealer draws `a = 0`; `Share(0 - 0)`
is falsy so the single `a`-share becomes the random `7`; later
`sum(share_b) - share_b[0] = 0` is falsy again and becomes the random `5`.
The reconstructed triplet is `a = 7`, `b = 3`, `c = 1`, and `7·3 = 21 ≢ 1
(mod 11)`. -/
theorem C7_counterexample :
    ¬ Int.ModEq 11
      (Smc.reconstruct_secret 11
          ((Smc.generate_triplets 11 1
              ⟨fun i => if i = 0 then 0 else if i = 1 then 7
                else if i = 2 then 3 else 5, 0, false⟩).1.map (fun tr => tr.1))
        * Smc.reconstruct_secret 11
          ((Smc.generate_triplets 11 1
              ⟨fun i => if i = 0 then 0 else if i = 1 then 7
                else if i = 2 then 3 else 5, 0, false⟩).1.map (fun tr => tr.2.1)))
      (Smc.reconstruct_secret 11
          ((Smc.generate_triplets 11 1
              ⟨fun i => if i = 0 then 0 else if i = 1 then 7
                else if i = 2 then 3 else 5, 0, false⟩).1.map (fun tr => tr.2.2))) := by
  decide

/-- C7 (amended): for a dealer with `n ≥ 1` registered participants and any
run of `generate_triplets` in which the falsy-zero fallback of
`Share.__init__` never fires, the participants' `a`-, `b`- and `c`-shares
reconstruct to values with `a·b ≡ c (mod p)`. -/
theorem C7_beaver_triplets (p n : Nat) (g : Smc.RState) (hn : 1 ≤ n)
    (hfin : (Smc.generate_triplets p n g).2.glitched = false) :
    Int.ModEq (p : Int)
      (Smc.reconstruct_secret p
          ((Smc.generate_triplets p n g).1.map (fun tr => tr.1))
        * Smc.reconstruct_secret p
          ((Smc.generate_triplets p n g).1.map (fun tr => tr.2.1)))
      (Smc.reconstruct_secret p
          ((Smc.generate_triplets p n g).1.map (fun tr => tr.2.2))) := by
  rcases hd1 : g.draw with ⟨aDraw, g1⟩
  rcases h2 : Smc.share_secret p (aDraw : Int) n g1 with ⟨sa, g2⟩
  rcases hd2 : g2.draw with ⟨bDraw, g3⟩
  rcases h4 : Smc.share_secret p (bDraw : Int) n g3 with ⟨sb, g4⟩
  rcases h5 : Smc.computeCs p sa sb (List.range sa.length) g4 with ⟨cs, g5⟩
  have hgen : Smc.generate_triplets p n g
      = ((List.range n).map
          (fun i => (sa.getD i ⟨0⟩, sb.getD i ⟨0⟩, cs.getD i ⟨0⟩)), g5) := by
    simp only [Smc.generate_triplets, hd1, h2, hd2, h4, h5]
  rw [hgen] at hfin
  have hcs := @Smc.computeCs_spec p sa sb
    (List.range sa.length) g4 (by rw [h5]; exact hfin)
  rw [h5] at hcs
  obtain ⟨-, hlen, hsum⟩ := hcs
  have hsalen : sa.length = n := by
    have := Smc.share_secret_length (p := p) (v := (aDraw : Int)) (g := g1) hn
    rw [h2] at this
    exact this
  have hsblen : sb.length = n := by
    have := Smc.share_secret_length (p := p) (v := (bDraw : Int)) (g := g3) hn
    rw [h4] at this
    exact this
  have hcslen : cs.length = n := by
    rw [hlen, List.length_range, hsalen]
  -- the three reconstructed columns
  have hacol : ((List.range n).map
      (fun i => (sa.getD i ⟨0⟩, sb.getD i ⟨0⟩, cs.getD i ⟨0⟩))).map
        (fun tr => tr.1) = sa := by
    rw [List.map_map]
    rw [show n = sa.length from hsalen.symm]
    exact Smc.range_getD_map sa
  have hbcol : ((List.range n).map
      (fun i => (sa.getD i ⟨0⟩, sb.getD i ⟨0⟩, cs.getD i ⟨0⟩))).map
        (fun tr => tr.2.1) = sb := by
    rw [List.map_map]
    rw [show n = sb.length from hsblen.symm]
    exact Smc.range_getD_map sb
  have hccol : ((List.range n).map
      (fun i => (sa.getD i ⟨0⟩, sb.getD i ⟨0⟩, cs.getD i ⟨0⟩))).map
        (fun tr => tr.2.2) = cs := by
    rw [List.map_map]
    rw [show n = cs.length from hcslen.symm]
    exact Smc.range_getD_map cs
  rw [hgen]
  simp only [hacol, hbcol, hccol]
  -- Σ c ≡ (Σ a) · (Σ b)
  have hsum2 : Int.ModEq (p : Int) ((cs.map Smc.Share.value).sum)
      (((sa.map Smc.Share.value).sum) * ((sb.map Smc.Share.value).sum)) := by
    refine hsum.trans ?_
    have : ((List.range sa.length).map
        (fun i => (sa.getD i ⟨0⟩).value * (sb.map Smc.Share.value).sum)).sum
        = ((List.range sa.length).map
            (fun i => (sa.getD i ⟨0⟩).value)).sum * (sb.map Smc.Share.value).sum := by
      rw [List.sum_map_mul_right]
    rw [this]
    have : (List.range sa.length).map (fun i => (sa.getD i ⟨0⟩).value)
        = sa.map Smc.Share.value := by
      have := congrArg (List.map Smc.Share.value) (Smc.range_getD_map sa)
      rw [List.map_map] at this
      exact this
    rw [this]
  unfold Smc.reconstruct_secret
  exact ((Smc.emod_modEq _ _).mul (Smc.emod_modEq _ _)).trans
    (hsum2.symm.trans (Smc.emod_modEq _ _).symm)

/-- C7 witness: two participants, `p = 11`, random stream `1, 2, 3, 4, …`;
the run is glitch-free and reconstructs `a = 1`, `b = 3`, `c = 3` with
`1·3 ≡ 3 (mod 11)`. -/
theorem C7_beaver_triplets_witness :
    Int.ModEq 11
      (Smc.reconstruct_secret 11
          ((Smc.generate_triplets 11 2 ⟨fun i => i + 1, 0, false⟩).1.map
            (fun tr => tr.1))
        * Smc.reconstruct_secret 11
          ((Smc.generate_triplets 11 2 ⟨fun i => i + 1, 0, false⟩).1.map
            (fun tr => tr.2.1)))
      (Smc.reconstruct_secret 11
          ((Smc.generate_triplets 11 2 ⟨fun i => i + 1, 0, false⟩).1.map
            (fun tr => tr.2.2))) :=
  C7_beaver_triplets 11 2 ⟨fun i => i + 1, 0, false⟩ (by decide) (by decide)

/-- C1 fails on the code: with subscription map `{restaurant: 0, username: 1,
password: 2}`, a credential whose three attribute values are byte strings,
and `types = ["restaurant"]`, `sign_request` correctly computes the hidden
index set `{1, 2}` — the complement by index of the disclosed names — but
passes it as a list of Python `int`s to `create_disclosure_proof`, whose
value-membership test `attribute in hidden_attributes` compares byte strings
against ints and never succeeds.  The returned disclosure proof therefore has
an empty hidden part and discloses ALL attributes, including the password
slot at index 2. -/
theorem C1_sign_request_discloses_password (p : Nat) (Hd : Cred.DiscHash p)
    (pk : Cred.PubKey p) (sig1 sig2 : ZMod p) (r t z_prime : Int)
    (zs : Nat → Int) :
    Stroll.sign_request_hidden
        [("restaurant", 0), ("username", 1), ("password", 2)]
        [(0, Cred.PyVal.bytes [1]), (1, Cred.PyVal.bytes [2]),
          (2, Cred.PyVal.bytes [3])]
        ["restaurant"]
      = some [Cred.PyVal.int 1, Cred.PyVal.int 2] ∧
    (Stroll.sign_request p Hd
        (pk, [("restaurant", 0), ("username", 1), ("password", 2)])
        ((sig1, sig2),
          [(0, Cred.PyVal.bytes [1]), (1, Cred.PyVal.bytes [2]),
            (2, Cred.PyVal.bytes [3])])
        [9] ["restaurant"] r t z_prime zs).map
      (fun dp => (dp.disclosed, dp.s))
      = some ([(0, Cred.PyVal.bytes [1]), (1, Cred.PyVal.bytes [2]),
          (2, Cred.PyVal.bytes [3])], []) :=
  ⟨rfl, rfl⟩

/-- C6 witness: `p = 5`, one attribute, `x = 2`, `y_0 = 3`, message `[7]`. -/
theorem C6_sign_then_verify_witness :
    ((Cred.sign 5 (Cred.generate_key 5 ["A"] 2 (fun _ => 3)).1 [[7]]).bind
      (fun s => Cred.verify 5 (Cred.generate_key 5 ["A"] 2 (fun _ => 3)).2 s [[7]]))
      = some true :=
  C6_sign_then_verify 5 (by decide) ["A"] 2 (fun _ => 3) [[7]] (by decide)
